import Mathlib

/-! In-memory message store (`storage/memory.go`).

A shallow embedding of the `InMemory` storage backend: the message vector
`Messages`, the identifier index `MessageIDIndex`, and the operations
`Store`, `Count`, `Search`, `List`, `DeleteOne`, `delete`, `DeleteAll`,
`Load` and `cleanupOldMessages`.

Conventions of the embedding:

* Go `int` / `int64` values are `Int`; every arithmetic operation of the
  pagination code that can leave the 64-bit range is wrapped by `wrapInt`.
* A run-time panic (index out of range, slice bounds out of range) is the
  outer `none` of an `Option`.
* A Go `error` result is an `Option GoError` (`none` is `nil`).
* The reader-writer mutex is not part of the sequential model.
* `strings.ToLower` maps `unicode.ToLower` over the runes of a string; the
  table `unicode.CaseRanges` it consults for the runes above `0x7F` belongs to
  the Go library and is the parameter `caseRanges` of `Search`.  Every
  theorem about `Search` holds for every such table.
-/

/-! ## Machine integers -/

/-- Two's-complement wrap-around of a Go `int` (64 bits). -/
def wrapInt (x : Int) : Int :=
  (x + 9223372036854775808) % 18446744073709551616 - 9223372036854775808

/-- Values representable as a Go `int`. -/
def IsInt (x : Int) : Prop :=
  -9223372036854775808 ≤ x ∧ x < 9223372036854775808

instance (x : Int) : Decidable (IsInt x) := by
  unfold IsInt; infer_instance

/-! ## Go maps with string keys and `int` values -/

/-- A Go `map[string]int`: a finite set of entries with pairwise distinct
keys.  The order of `entries` carries no meaning. -/
structure GoMap where
  entries : List (String × Int)
  nodup : (entries.map Prod.fst).Nodup

namespace GoMap

/-- The result of `make(map[string]int)`. -/
def empty : GoMap := ⟨[], List.nodup_nil⟩

/-- The lookup `v, ok := m[k]`: `some v` when `ok`. -/
def get? (m : GoMap) (k : String) : Option Int :=
  m.entries.lookup k

/-- The keys of the map. -/
def keys (m : GoMap) : List String :=
  m.entries.map Prod.fst

/-- The number of keys, `len(m)`. -/
def len (m : GoMap) : Nat :=
  m.entries.length

/-- The builtin `delete(m, k)`. -/
def erase (m : GoMap) (k : String) : GoMap :=
  ⟨m.entries.filter (fun e => e.1 != k),
    List.Nodup.sublist (List.Sublist.map _ (List.filter_sublist m.entries)) m.nodup⟩

/-- The assignment `m[k] = v`. -/
def set (m : GoMap) (k : String) (v : Int) : GoMap :=
  ⟨(m.entries.filter (fun e => e.1 != k)) ++ [(k, v)], by
    rw [List.map_append]
    refine List.Nodup.append
      (List.Nodup.sublist (List.Sublist.map _ (List.filter_sublist m.entries)) m.nodup)
      (by simp) ?_
    intro a ha hb
    simp only [List.map_cons, List.map_nil, List.mem_singleton] at hb
    subst hb
    simp [List.mem_map, List.mem_filter] at ha⟩

/-- A `range` loop over the map that replaces the value `v` of each visited
key by `f v` (every entry is visited once, and only its own value is
assigned, so the visiting order does not matter). -/
def mapVals (m : GoMap) (f : Int → Int) : GoMap :=
  ⟨m.entries.map (fun e => (e.1, f e.2)), by
    rw [List.map_map]
    exact m.nodup⟩

end GoMap

/-! ## The `data` package -/

namespace data

/-- Modelled from the spec: the type `data.Path`, whose declaration is not
among the sources; only the fields read by the store are kept. -/
structure Path where
  Mailbox : String
  Domain : String
  deriving DecidableEq, Repr

/-- Modelled from the spec: the type `data.Content`, whose declaration is not
among the sources.  `Headers` is a Go `map[string][]string`, kept as an
association list. -/
structure Content where
  Headers : List (String × List String)
  Body : String
  deriving DecidableEq, Repr

/-- Modelled from the spec: the type `data.Message`, whose declaration is not
among the sources; only the fields read by the store are kept.  `Created` is
an instant in nanoseconds. -/
structure Message where
  ID : String
  From : Path
  To : List Path
  Content : Content
  Created : Int
  deriving DecidableEq, Repr

/-- The type `data.Messages`, a slice of messages. -/
abbrev Messages := List Message

end data

/-! ## The store -/

/-- The error values returned by the store. -/
inductive GoError where
  | messageNotFound
  deriving DecidableEq, Repr

/-- The struct `InMemory` (without its mutex). -/
structure InMemory where
  TTL : Int
  MessageIDIndex : GoMap
  Messages : List data.Message

/-- The index expression `xs[i]` for a Go `int` index: `none` is the
index-out-of-range panic. -/
def index? {α : Type} (xs : List α) (i : Int) : Option α :=
  if 0 ≤ i then xs[i.toNat]? else none

/-- The function `CreateInMemory` (the background sweep it starts when
`ttl > 0` is the operation `cleanupOldMessages`, run every 30 seconds). -/
def CreateInMemory (ttl : Int) : InMemory :=
  { MessageIDIndex := GoMap.empty, Messages := [], TTL := ttl }

/-- The method `Store`: appends the message, indexes its identifier at the
last position, returns the identifier and a nil error. -/
def InMemory.Store (memory : InMemory) (m : data.Message) :
    InMemory × String × Option GoError :=
  let messages := memory.Messages ++ [m]
  let idx := memory.MessageIDIndex.set m.ID ((messages.length : Int) - 1)
  ({ memory with Messages := messages, MessageIDIndex := idx }, m.ID, none)

/-- The method `Count`. -/
def InMemory.Count (memory : InMemory) : Int :=
  memory.Messages.length

/-- The Go function `unicode.ToLower`: an ASCII rune is lower-cased by the
comparison with `'A'` and `'Z'`; any other rune is looked up in the table
`unicode.CaseRanges`, which is not part of this repository and is the
parameter `caseRanges` (the lower-case mapping of the runes above `0x7F`). -/
def unicodeToLower (caseRanges : Char → Char) (r : Char) : Char :=
  if r.val ≤ 127 then Char.toLower r else caseRanges r

/-- The Go function `strings.ToLower`: every rune of the string is mapped by
`unicode.ToLower` (its fast path for ASCII strings computes the same
result). -/
def toLower (caseRanges : Char → Char) (s : String) : String :=
  String.mk (s.data.map (unicodeToLower caseRanges))

/-- An excerpt of the table `unicode.CaseRanges`, for examples: the capital
letters of the Latin-1 block, `U+00C0` to `U+00DE` without `U+00D7`, map to
the letter 32 places further; every other rune is left as it is. -/
def latin1CaseRanges (r : Char) : Char :=
  if 192 ≤ r.toNat ∧ r.toNat ≤ 222 ∧ r.toNat ≠ 215 then Char.ofNat (r.toNat + 32) else r

/-- The Go function `strings.Contains`. -/
def contains (s substr : String) : Bool :=
  s.data.tails.any (fun t => substr.data.isPrefixOf t)

/-- The body of the loop over `memory.Messages` in `Search`: the value of
`doAppend` for message `m`, where `query` is already lower-cased. -/
def doAppend (caseRanges : Char → Char) (kind query : String) (m : data.Message) : Bool :=
  if kind = "to" then
    if m.To.any (fun p => contains (toLower caseRanges (p.Mailbox ++ "@" ++ p.Domain)) query) then true
    else
      match m.Content.Headers.lookup "To" with
      | some hdr => hdr.any (fun v => contains (toLower caseRanges v) query)
      | none => false
  else if kind = "from" then
    if contains (toLower caseRanges (m.From.Mailbox ++ "@" ++ m.From.Domain)) query then true
    else
      match m.Content.Headers.lookup "From" with
      | some hdr => hdr.any (fun v => contains (toLower caseRanges v) query)
      | none => false
  else if kind = "containing" then
    if contains (toLower caseRanges m.Content.Body) query then true
    else m.Content.Headers.any (fun hdr => hdr.2.any (fun v => contains (toLower caseRanges v) query))
  else false

/-- The loop `for i := start; i > end; i--` of `List` and `Search`, which
appends `xs[i]` to the result.  The loop runs `start - end` times when
`start > end` and not at all otherwise; `fuel` is that number.  As `end` is
at least `-1` when the loop starts, `i - 1` stays in range. -/
def collectDown (xs : List data.Message) (stop : Int) :
    Nat → Int → data.Messages → Option data.Messages
  | 0, _, acc => some acc
  | fuel + 1, i, acc =>
    if i > stop then
      match index? xs i with
      | none => none
      | some m => collectDown xs stop fuel (i - 1) (acc ++ [m])
    else some acc

/-- The method `Search`: the filtered messages, newest first, paginated, with
the number of matches. -/
def InMemory.Search (memory : InMemory) (caseRanges : Char → Char) (kind query : String)
    (start limit : Int) :
    Option (data.Messages × Int × Option GoError) :=
  let query := toLower caseRanges query
  let filteredMessages := memory.Messages.filter (doAppend caseRanges kind query)
  let len : Int := filteredMessages.length
  if len = 0 ∨ start > len then some ([], 0, none)
  else
    let limit := if wrapInt (start + limit) > len then wrapInt (len - start) else limit
    let start := wrapInt (wrapInt (len - start) - 1)
    let stop := wrapInt (start - limit)
    let start := if start < 0 then 0 else start
    let stop := if stop < -1 then -1 else stop
    (collectDown filteredMessages stop (start - stop).toNat start []).map
      (fun messages => (messages, len, none))

/-- The method `delete`: removes `id` from the index, decrements every index
greater than `index`, and removes position `index` from the vector.  The
slice expressions panic unless `0 ≤ index < len(Messages)`. -/
def InMemory.delete (memory : InMemory) (index : Int) (id : String) : Option InMemory :=
  let idx := (memory.MessageIDIndex.erase id).mapVals (fun v => if v > index then v - 1 else v)
  if 0 ≤ index ∧ index < memory.Messages.length then
    some { memory with MessageIDIndex := idx, Messages := memory.Messages.eraseIdx index.toNat }
  else none

/-- The method `DeleteOne`. -/
def InMemory.DeleteOne (memory : InMemory) (id : String) : Option (InMemory × Option GoError) :=
  match memory.MessageIDIndex.get? id with
  | none => some (memory, some GoError.messageNotFound)
  | some index => (memory.delete index id).map (fun mem => (mem, none))

/-- The method `DeleteAll`. -/
def InMemory.DeleteAll (memory : InMemory) : InMemory × Option GoError :=
  ({ memory with Messages := [], MessageIDIndex := GoMap.empty }, none)

/-- The method `Load`: the message pointer (`none` is `nil`) and the error. -/
def InMemory.Load (memory : InMemory) (id : String) :
    Option (Option data.Message × Option GoError) :=
  match memory.MessageIDIndex.get? id with
  | some idx => (index? memory.Messages idx).map (fun m => (some m, none))
  | none => some (none, none)

/-- The instant `time.Now().Add(time.Second * -1 * time.Duration(memory.TTL))`,
in nanoseconds, for the current instant `now`. -/
def deleteTime (now ttl : Int) : Int :=
  now + wrapInt (wrapInt (1000000000 * -1) * ttl)

/-- One iteration of the `range` loop of `cleanupOldMessages`, for the key
`id`: the index is read from the map as it is when the key is reached (a key
no longer in the map is not produced). -/
def sweepStep (cutoff : Int) (memory : InMemory) (id : String) : Option InMemory :=
  match memory.MessageIDIndex.get? id with
  | none => some memory
  | some index =>
    match index? memory.Messages index with
    | none => none
    | some m => if m.Created < cutoff then memory.delete index id else some memory

/-- The method `cleanupOldMessages`, run at instant `now`; `order` is the
order in which the `range` loop visits the keys of the index. -/
def InMemory.cleanupOldMessages (memory : InMemory) (now : Int) (order : List String) :
    Option InMemory :=
  order.foldlM (sweepStep (deleteTime now memory.TTL)) memory

/-- A call of one of the mutating operations of the store.  For
`cleanupOldMessages` the call records the instant at which it runs and the
order in which its `range` loop visits the keys. -/
inductive Call where
  | Store (m : data.Message)
  | DeleteOne (id : String)
  | DeleteAll
  | cleanupOldMessages (now : Int) (order : List String)

/-- The state after one call (`none` when the call panics). -/
def InMemory.call (memory : InMemory) : Call → Option InMemory
  | Call.Store m => some (memory.Store m).1
  | Call.DeleteOne id => (memory.DeleteOne id).map (fun r => r.1)
  | Call.DeleteAll => some memory.DeleteAll.1
  | Call.cleanupOldMessages now order => memory.cleanupOldMessages now order

/-- The state after a sequence of calls. -/
def InMemory.run (memory : InMemory) (calls : List Call) : Option InMemory :=
  calls.foldlM InMemory.call memory

/-- Every `Store` call of the sequence, run from `memory`, inserts a message
whose identifier is not a key of the index at the time of the call. -/
def freshStores (memory : InMemory) : List Call → Bool
  | [] => true
  | c :: cs =>
    (match c with
      | Call.Store m => (memory.MessageIDIndex.get? m.ID).isNone
      | _ => true) &&
    (match memory.call c with
      | some next => freshStores next cs
      | none => true)

/-- The index and the vector are in bijection: `MessageIDIndex[id] == i`
exactly when `i` is a position of `Messages` that holds a message with
identifier `id`. -/
def Bijection (memory : InMemory) : Prop :=
  ∀ (id : String) (i : Int),
    memory.MessageIDIndex.get? id = some i ↔
      (index? memory.Messages i).map (fun m => m.ID) = some id

/-- A message used in examples. -/
def exampleMessage (id : String) (created : Int) : data.Message :=
  { ID := id, From := ⟨"alice", "x.com"⟩, To := [⟨"bob", "y.com"⟩],
    Content := ⟨[("Subject", ["t"])], "hi"⟩, Created := created }

/-- The spec's notion of matching: `sub` occurs in `s` as a contiguous run of
characters. -/
def IsSubstring (sub s : String) : Prop :=
  ∃ a b : List Char, s.data = a ++ sub.data ++ b

/-- A message with the given identifier, sender, recipients, headers and
body, used in examples. -/
def messageWith (id : String) (sender : data.Path) (rcpts : List data.Path)
    (headers : List (String × List String)) (body : String) : data.Message :=
  { ID := id, From := sender, To := rcpts, Content := ⟨headers, body⟩, Created := 0 }

/-- Every rune of the string is an ASCII rune. -/
def asciiString (s : String) : Bool :=
  s.data.all (fun c => decide (c.val ≤ 127))

/-- Every string of the message that `Search` lower-cases is ASCII: the
sender, the recipients, the header values and the body. -/
def asciiMessage (m : data.Message) : Bool :=
  asciiString (m.From.Mailbox ++ "@" ++ m.From.Domain) &&
  m.To.all (fun p => asciiString (p.Mailbox ++ "@" ++ p.Domain)) &&
  m.Content.Headers.all (fun hdr => hdr.2.all asciiString) &&
  asciiString m.Content.Body

/-- The method `List`: the stored messages, newest first, paginated.  (It is
declared last because its name hides the list type inside the namespace of
the store.) -/
def InMemory.List (memory : InMemory) (start limit : Int) :
    Option (data.Messages × Option GoError) :=
  let len : Int := memory.Messages.length
  if len = 0 ∨ start > len then some ([], none)
  else
    let limit := if wrapInt (start + limit) > len then wrapInt (len - start) else limit
    let start := wrapInt (wrapInt (len - start) - 1)
    let stop := wrapInt (start - limit)
    let start := if start < 0 then 0 else start
    let stop := if stop < -1 then -1 else stop
    (collectDown memory.Messages stop (start - stop).toNat start []).map
      (fun messages => (messages, none))

/-! ## Lemmas on maps -/

variable {caseRanges : Char → Char}

theorem lookup_filter_ne (es : List (String × Int)) (k k' : String) :
    (es.filter (fun e => e.1 != k)).lookup k' = if k' = k then none else es.lookup k' := by
  induction es with
  | nil => simp
  | cons e es ih =>
    obtain ⟨a, v⟩ := e
    by_cases hak : a = k
    · subst hak
      by_cases hk : k' = a
      · subst hk; simp [List.filter_cons, ih]
      · have : (k' == a) = false := by simpa using hk
        simp [List.filter_cons, ih, List.lookup_cons, this, hk]
    · have h1 : (a != k) = true := by simpa using hak
      by_cases hk : k' = a
      · subst hk
        simp [List.filter_cons, h1, List.lookup_cons, hak]
      · have : (k' == a) = false := by simpa using hk
        simp [List.filter_cons, h1, List.lookup_cons, this, ih]

theorem lookup_map_snd (es : List (String × Int)) (f : Int → Int) (k : String) :
    (es.map (fun e => (e.1, f e.2))).lookup k = (es.lookup k).map f := by
  induction es with
  | nil => simp
  | cons e es ih =>
    obtain ⟨a, v⟩ := e
    by_cases hk : k = a
    · subst hk; simp [List.lookup_cons]
    · have : (k == a) = false := by simpa using hk
      simp [List.lookup_cons, this, ih]

theorem lookup_isSome_iff_mem (es : List (String × Int)) (k : String) :
    (∃ v, es.lookup k = some v) ↔ k ∈ es.map Prod.fst := by
  induction es with
  | nil => simp
  | cons e es ih =>
    obtain ⟨a, v⟩ := e
    by_cases hk : k = a
    · subst hk; simp [List.lookup_cons]
    · have : (k == a) = false := by simpa using hk
      simp [List.lookup_cons, this, ih, hk]

namespace GoMap

@[simp] theorem get?_empty (k : String) : GoMap.empty.get? k = none := rfl

theorem get?_erase (m : GoMap) (k k' : String) :
    (m.erase k).get? k' = if k' = k then none else m.get? k' :=
  lookup_filter_ne m.entries k k'

theorem get?_mapVals (m : GoMap) (f : Int → Int) (k : String) :
    (m.mapVals f).get? k = (m.get? k).map f :=
  lookup_map_snd m.entries f k

theorem get?_set (m : GoMap) (k : String) (v : Int) (k' : String) :
    (m.set k v).get? k' = if k' = k then some v else m.get? k' := by
  unfold set get?
  simp only [List.lookup_append, lookup_filter_ne]
  by_cases hk : k' = k
  · subst hk; simp [List.lookup_cons]
  · have : (k' == k) = false := by simpa using hk
    simp [hk, List.lookup_cons, this]

theorem mem_keys_iff (m : GoMap) (k : String) :
    k ∈ m.keys ↔ ∃ v, m.get? k = some v :=
  (lookup_isSome_iff_mem m.entries k).symm

theorem len_eq_keys_length (m : GoMap) : m.len = m.keys.length := by
  simp [len, keys]

end GoMap

theorem wrapInt_of_isInt (x : Int) (h : IsInt x) : wrapInt x = x := by
  unfold IsInt at h
  unfold wrapInt
  omega

theorem index?_natCast {α : Type} (xs : List α) (n : Nat) : index? xs (n : Int) = xs[n]? := by
  simp [index?]

/-- The loop from position `j - 1` down to position `k` collects the
positions `k, …, j - 1` of `xs` in decreasing order. -/
theorem collectDown_eq (xs : List data.Message) :
    ∀ (fuel j k : Nat) (acc : data.Messages), j ≤ xs.length → k ≤ j → fuel = j - k →
      collectDown xs ((k : Int) - 1) fuel ((j : Int) - 1) acc
        = some (acc ++ ((xs.take j).drop k).reverse) := by
  intro fuel
  induction fuel with
  | zero =>
    intro j k acc _ hkj hf
    have : j = k := by omega
    subst this
    simp [collectDown]
  | succ fuel ih =>
    intro j k acc hj hkj hf
    obtain ⟨j', rfl⟩ : ∃ j', j = j' + 1 := ⟨j - 1, by omega⟩
    have hlt : j' < xs.length := by omega
    have hgt : ((j' + 1 : Nat) : Int) - 1 > (k : Int) - 1 := by omega
    have hidx : index? xs (((j' + 1 : Nat) : Int) - 1) = some (xs[j']) := by
      have : (((j' + 1 : Nat) : Int) - 1) = (j' : Int) := by omega
      rw [this, index?_natCast, List.getElem?_eq_getElem hlt]
    have hnext : (((j' + 1 : Nat) : Int) - 1 - 1) = (j' : Int) - 1 := by omega
    rw [collectDown, if_pos hgt, hidx]
    simp only
    rw [hnext, ih j' k (acc ++ [xs[j']]) (by omega) (by omega) (by omega)]
    rw [List.take_succ, List.getElem?_eq_getElem hlt]
    simp only [Option.toList]
    rw [List.drop_append_of_le_length (by simp; omega)]
    simp

/-- The positions `k, …, j - 1` in decreasing order are a page of the
reversed list. -/
theorem reverse_drop_take_eq {α : Type} (xs : List α) (s l j k : Nat)
    (hs : s < xs.length) (hj : j = xs.length - s) (hk : j - k = min l j) (hkj : k ≤ j) :
    ((xs.take j).drop k).reverse = (xs.reverse.drop s).take l := by
  rw [List.reverse_drop, List.reverse_take]
  have e : xs.length - j = s := by omega
  rw [e, List.take_eq_take]
  simp only [List.length_take, List.length_drop, List.length_reverse]
  omega

/-- The pagination arithmetic shared by `List` and `Search`, for a start
position inside the vector and a non-negative limit. -/
theorem page_eq (xs : List data.Message) (start limit : Int)
    (h0 : 0 ≤ start) (h1 : start < xs.length) (h2 : 0 ≤ limit)
    (hl : IsInt limit) (hn : IsInt xs.length) :
    let len : Int := xs.length
    let limit1 := if wrapInt (start + limit) > len then wrapInt (len - start) else limit
    let start1 := wrapInt (wrapInt (len - start) - 1)
    let stop1 := wrapInt (start1 - limit1)
    let start2 := if start1 < 0 then 0 else start1
    let stop2 := if stop1 < -1 then -1 else stop1
    collectDown xs stop2 (start2 - stop2).toNat start2 []
      = some ((xs.reverse.drop start.toNat).take limit.toNat) := by
  intro len limit1 start1 stop1 start2 stop2
  obtain ⟨hl1, hl2⟩ := hl
  obtain ⟨hn1, hn2⟩ := hn
  have hstart1 : start1 = len - start - 1 := by
    simp only [start1, wrapInt]; omega
  have hlimit1 : 0 ≤ limit1 ∧ limit1 < 9223372036854775808 ∧
      (limit ≤ len - start → limit1 = limit) ∧ (len - start < limit → len - start ≤ limit1) := by
    simp only [limit1, wrapInt]
    split <;> omega
  have hstart2 : start2 = len - start - 1 := by
    simp only [start2]; split <;> omega
  have hstop2 : stop2 = len - start - 1 - min limit (len - start) := by
    simp only [stop2, stop1, wrapInt]
    split <;> omega
  have key := collectDown_eq xs (start2 - stop2).toNat (xs.length - start.toNat)
    (xs.length - start.toNat - min limit.toNat (xs.length - start.toNat)) []
    (by omega) (by omega) (by omega)
  have e1 : (((xs.length - start.toNat : Nat) : Int) - 1) = start2 := by omega
  have e2 : (((xs.length - start.toNat - min limit.toNat (xs.length - start.toNat) : Nat) : Int) - 1)
      = stop2 := by omega
  rw [e1, e2] at key
  rw [key, List.nil_append]
  congr 1
  exact reverse_drop_take_eq xs start.toNat limit.toNat _ _ (by omega) rfl (by omega) (by omega)

/-! ## Lemmas on indexing -/

theorem index?_eq_some_iff {α : Type} (xs : List α) (i : Int) (a : α) :
    index? xs i = some a ↔ ∃ n : Nat, i = (n : Int) ∧ xs[n]? = some a := by
  unfold index?
  constructor
  · intro h
    split at h
    · exact ⟨i.toNat, by omega, h⟩
    · cases h
  · rintro ⟨n, rfl, h⟩
    simpa using h

theorem index?_map_eq_some_iff (xs : List data.Message) (i : Int) (id : String) :
    (index? xs i).map (fun m => m.ID) = some id ↔
      ∃ n : Nat, i = (n : Int) ∧ ∃ m, xs[n]? = some m ∧ m.ID = id := by
  constructor
  · intro h
    cases hx : index? xs i with
    | none => simp [hx] at h
    | some m =>
      obtain ⟨n, hn, hm⟩ := (index?_eq_some_iff xs i m).1 hx
      refine ⟨n, hn, m, hm, ?_⟩
      simpa [hx] using h
  · rintro ⟨n, hn, m, hm, rfl⟩
    rw [(index?_eq_some_iff xs i m).2 ⟨n, hn, hm⟩]
    rfl

theorem Bijection.index_lt {memory : InMemory} (h : Bijection memory) {id : String} {i : Int}
    (hi : memory.MessageIDIndex.get? id = some i) :
    0 ≤ i ∧ i < memory.Messages.length := by
  obtain ⟨n, rfl, m, hm, _⟩ := (index?_map_eq_some_iff _ _ _).1 ((h id i).1 hi)
  have := (List.getElem?_eq_some.1 hm).1
  omega

/-! ## Preservation of the bijection -/

theorem bijection_create (ttl : Int) : Bijection (CreateInMemory ttl) := by
  intro id i
  simp [CreateInMemory, index?]

theorem bijection_deleteAll (memory : InMemory) : Bijection memory.DeleteAll.1 := by
  intro id i
  simp [InMemory.DeleteAll, index?]

theorem bijection_store (memory : InMemory) (m : data.Message) (h : Bijection memory)
    (hfresh : memory.MessageIDIndex.get? m.ID = none) : Bijection (memory.Store m).1 := by
  intro id i
  simp only [InMemory.Store, GoMap.get?_set]
  rw [index?_map_eq_some_iff]
  by_cases hid : id = m.ID
  · subst hid
    simp only [if_true, Option.some.injEq]
    constructor
    · intro hi
      refine ⟨memory.Messages.length, ?_, m, by simp, rfl⟩
      rw [← hi]; simp
    · rintro ⟨n, hn, m', hm', hid⟩
      rcases Nat.lt_or_ge n memory.Messages.length with hlt | hge
      · rw [List.getElem?_append_left hlt] at hm'
        have := (h m.ID n).2 ((index?_map_eq_some_iff _ _ _).2 ⟨n, rfl, m', hm', hid⟩)
        rw [hfresh] at this
        cases this
      · have hlen := (List.getElem?_eq_some.1 hm').1
        simp at hlen
        rw [hn]; simp; omega
  · simp only [if_neg hid]
    rw [h id i, index?_map_eq_some_iff]
    constructor
    · rintro ⟨n, hn, m', hm', hid'⟩
      have hlt := (List.getElem?_eq_some.1 hm').1
      exact ⟨n, hn, m', by rw [List.getElem?_append_left hlt]; exact hm', hid'⟩
    · rintro ⟨n, hn, m', hm', hid'⟩
      rcases Nat.lt_or_ge n memory.Messages.length with hlt | hge
      · rw [List.getElem?_append_left hlt] at hm'
        exact ⟨n, hn, m', hm', hid'⟩
      · rw [List.getElem?_append_right hge] at hm'
        have : m' = m := by
          cases hk : n - memory.Messages.length with
          | zero => rw [hk] at hm'; simpa using hm'.symm
          | succ k => rw [hk] at hm'; simp at hm'
        subst this
        exact absurd hid'.symm hid

/-- The index after `delete(index, id)`. -/
theorem get?_delete (memory mem' : InMemory) (index : Int) (id k : String)
    (h : memory.delete index id = some mem') :
    mem'.MessageIDIndex.get? k =
      if k = id then none
      else (memory.MessageIDIndex.get? k).map (fun v => if v > index then v - 1 else v) := by
  unfold InMemory.delete at h
  split at h
  · cases h
    simp only [GoMap.get?_mapVals, GoMap.get?_erase]
    split <;> simp
  · cases h

theorem messages_delete (memory mem' : InMemory) (index : Int) (id : String)
    (h : memory.delete index id = some mem') :
    mem'.Messages = memory.Messages.eraseIdx index.toNat ∧ mem'.TTL = memory.TTL := by
  unfold InMemory.delete at h
  split at h
  · cases h; exact ⟨rfl, rfl⟩
  · cases h

theorem delete_isSome (memory : InMemory) (index : Int) (id : String)
    (h : 0 ≤ index ∧ index < memory.Messages.length) :
    ∃ mem', memory.delete index id = some mem' := by
  unfold InMemory.delete
  rw [if_pos h]
  exact ⟨_, rfl⟩

theorem bijection_delete (memory mem' : InMemory) (index : Int) (id : String)
    (h : Bijection memory) (hid : memory.MessageIDIndex.get? id = some index)
    (hd : memory.delete index id = some mem') : Bijection mem' := by
  obtain ⟨p, hp, mp, hmp, hmpid⟩ := (index?_map_eq_some_iff _ _ _).1 ((h id index).1 hid)
  subst hp
  intro k j
  rw [get?_delete memory mem' _ id k hd, (messages_delete memory mem' _ id hd).1,
    index?_map_eq_some_iff]
  simp only [Int.toNat_ofNat, List.getElem?_eraseIdx]
  constructor
  · intro hk
    by_cases hkid : k = id
    · simp [hkid] at hk
    · rw [if_neg hkid] at hk
      cases hv : memory.MessageIDIndex.get? k with
      | none => simp [hv] at hk
      | some v =>
        rw [hv] at hk
        simp only [Option.map_some', Option.some.injEq] at hk
        obtain ⟨n, hn, m, hm, hmid⟩ := (index?_map_eq_some_iff _ _ _).1 ((h k v).1 hv)
        subst hn
        have hne : n ≠ p := by
          rintro rfl
          rw [hmp] at hm
          cases hm
          exact hkid (hmid.symm.trans hmpid)
        by_cases hgt : (n : Int) > (p : Int)
        · rw [if_pos hgt] at hk
          refine ⟨n - 1, by omega, m, ?_, hmid⟩
          rw [if_neg (by omega)]
          have : n - 1 + 1 = n := by omega
          rw [this]; exact hm
        · rw [if_neg hgt] at hk
          refine ⟨n, by omega, m, ?_, hmid⟩
          rw [if_pos (by omega)]; exact hm
  · rintro ⟨q, hq, m, hm, hmid⟩
    subst hq
    by_cases hlt : q < p
    · rw [if_pos hlt] at hm
      have hk := (h k q).2 ((index?_map_eq_some_iff _ _ _).2 ⟨q, rfl, m, hm, hmid⟩)
      have hkid : k ≠ id := by
        rintro rfl
        rw [hid] at hk
        simp only [Option.some.injEq] at hk
        omega
      rw [if_neg hkid, hk]
      simp only [Option.map_some', Option.some.injEq]
      rw [if_neg (by omega)]
    · rw [if_neg hlt] at hm
      have hk := (h k (q + 1 : Nat)) |>.2
        ((index?_map_eq_some_iff _ _ _).2 ⟨q + 1, rfl, m, hm, hmid⟩)
      have hkid : k ≠ id := by
        rintro rfl
        rw [hid] at hk
        simp only [Option.some.injEq] at hk
        omega
      rw [if_neg hkid, hk]
      simp only [Option.map_some', Option.some.injEq]
      rw [if_pos (by omega)]
      omega

theorem bijection_deleteOne (memory mem' : InMemory) (id : String) (e : Option GoError)
    (h : Bijection memory) (hd : memory.DeleteOne id = some (mem', e)) : Bijection mem' := by
  unfold InMemory.DeleteOne at hd
  split at hd
  · cases hd; exact h
  · rename_i index hidx
    cases hdel : memory.delete index id with
    | none => simp [hdel] at hd
    | some m2 =>
      simp [hdel] at hd
      rw [← hd.1]
      exact bijection_delete memory m2 index id h hidx hdel

theorem deleteOne_isSome (memory : InMemory) (id : String) (h : Bijection memory) :
    ∃ mem' e, memory.DeleteOne id = some (mem', e) := by
  unfold InMemory.DeleteOne
  split
  · exact ⟨_, _, rfl⟩
  · rename_i index hidx
    obtain ⟨m2, hm2⟩ := delete_isSome memory index id (h.index_lt hidx)
    exact ⟨m2, none, by simp [hm2]⟩

/-! ## Consequences of the bijection -/

theorem Bijection.ids_nodup {memory : InMemory} (h : Bijection memory) :
    (memory.Messages.map (fun m => m.ID)).Nodup := by
  rw [List.nodup_iff_getElem?_ne_getElem?]
  intro i j hij hj heq
  rw [List.length_map] at hj
  have hi : i < memory.Messages.length := by omega
  have e1 : (memory.Messages.map (fun m => m.ID))[i]? = some (memory.Messages[i].ID) := by
    rw [List.getElem?_map, List.getElem?_eq_getElem hi]; rfl
  have e2 : (memory.Messages.map (fun m => m.ID))[j]? = some (memory.Messages[j].ID) := by
    rw [List.getElem?_map, List.getElem?_eq_getElem hj]; rfl
  rw [e1, e2] at heq
  simp only [Option.some.injEq] at heq
  have k1 := (h (memory.Messages[i].ID) i).2
    ((index?_map_eq_some_iff _ _ _).2 ⟨i, rfl, _, List.getElem?_eq_getElem hi, rfl⟩)
  have k2 := (h (memory.Messages[i].ID) j).2
    ((index?_map_eq_some_iff _ _ _).2 ⟨j, rfl, _, List.getElem?_eq_getElem hj, heq.symm⟩)
  rw [k1] at k2
  simp only [Option.some.injEq] at k2
  omega

theorem Bijection.mem_keys_iff_mem_ids {memory : InMemory} (h : Bijection memory) (id : String) :
    id ∈ memory.MessageIDIndex.keys ↔ id ∈ memory.Messages.map (fun m => m.ID) := by
  rw [GoMap.mem_keys_iff, List.mem_map]
  constructor
  · rintro ⟨v, hv⟩
    obtain ⟨n, _, m, hm, hmid⟩ := (index?_map_eq_some_iff _ _ _).1 ((h id v).1 hv)
    exact ⟨m, List.mem_iff_getElem?.2 ⟨n, hm⟩, hmid⟩
  · rintro ⟨m, hm, hmid⟩
    obtain ⟨n, hn⟩ := List.mem_iff_getElem?.1 hm
    exact ⟨n, (h id n).2 ((index?_map_eq_some_iff _ _ _).2 ⟨n, rfl, m, hn, hmid⟩)⟩

/-- Under the bijection, the index has as many keys as the vector has
messages. -/
theorem Bijection.len_eq {memory : InMemory} (h : Bijection memory) :
    memory.MessageIDIndex.len = memory.Messages.length := by
  have hperm : memory.MessageIDIndex.keys.Perm (memory.Messages.map (fun m => m.ID)) :=
    (List.perm_ext_iff_of_nodup memory.MessageIDIndex.nodup h.ids_nodup).2 h.mem_keys_iff_mem_ids
  rw [GoMap.len_eq_keys_length, hperm.length_eq, List.length_map]

/-! ## The sweep -/

/-- Removing the only position that satisfies `P` is filtering by `¬ P`. -/
theorem eraseIdx_eq_filter {α : Type} (P : α → Bool) :
    ∀ (xs : List α) (p : Nat), p < xs.length →
      (∀ (q : Nat) (a : α), xs[q]? = some a → (P a = true ↔ q = p)) →
      xs.eraseIdx p = xs.filter (fun a => !P a) := by
  intro xs
  induction xs with
  | nil => intro p hp; simp at hp
  | cons x t ih =>
    intro p hp hP
    cases p with
    | zero =>
      have hx : P x = true := (hP 0 x (by simp)).2 rfl
      have ht : ∀ a ∈ t, (!P a) = true := by
        intro a ha
        obtain ⟨n, hn⟩ := List.mem_iff_getElem?.1 ha
        have := hP (n + 1) a (by simpa using hn)
        cases hPa : P a with
        | false => rfl
        | true => have := this.1 hPa; omega
      simp [List.filter_cons, hx, List.filter_eq_self.2 ht]
    | succ p =>
      have hx : P x = false := by
        cases hPx : P x with
        | false => rfl
        | true => have := (hP 0 x (by simp)).1 hPx; omega
      have := ih p (by simpa using hp) (by
        intro q a hq
        have := hP (q + 1) a (by simpa using hq)
        rw [this]; omega)
      simp [List.filter_cons, hx, this]

/-- One iteration of the sweep, from a state in bijection: it does not
panic, keeps the bijection, and removes exactly the message with identifier
`id` when that message is older than the cutoff. -/
theorem sweepStep_spec (cutoff : Int) (memory : InMemory) (id : String) (h : Bijection memory) :
    ∃ mem', sweepStep cutoff memory id = some mem' ∧ Bijection mem' ∧ mem'.TTL = memory.TTL ∧
      mem'.Messages =
        memory.Messages.filter (fun m => !(decide (m.Created < cutoff) && decide (m.ID = id))) := by
  unfold sweepStep
  cases hidx : memory.MessageIDIndex.get? id with
  | none =>
    refine ⟨memory, rfl, h, rfl, ?_⟩
    symm
    rw [List.filter_eq_self]
    intro m hm
    have : m.ID ≠ id := by
      intro hmid
      have := (h.mem_keys_iff_mem_ids id).2 (List.mem_map.2 ⟨m, hm, hmid⟩)
      obtain ⟨v, hv⟩ := (GoMap.mem_keys_iff _ _).1 this
      rw [hidx] at hv; cases hv
    simp [this]
  | some index =>
    obtain ⟨p, hp, mp, hmp, hmpid⟩ := (index?_map_eq_some_iff _ _ _).1 ((h id index).1 hidx)
    have hix : index? memory.Messages index = some mp :=
      (index?_eq_some_iff _ _ _).2 ⟨p, hp, hmp⟩
    have hplt : p < memory.Messages.length := (List.getElem?_eq_some.1 hmp).1
    have honly : ∀ (q : Nat) (a : data.Message), memory.Messages[q]? = some a →
        (a.ID = id ↔ q = p) := by
      intro q a hq
      constructor
      · intro haid
        have := (h id q).2 ((index?_map_eq_some_iff _ _ _).2 ⟨q, rfl, a, hq, haid⟩)
        rw [hidx] at this
        simp only [Option.some.injEq] at this
        omega
      · rintro rfl
        rw [hmp] at hq; cases hq; exact hmpid
    simp only [hix]
    by_cases hold : mp.Created < cutoff
    · rw [if_pos hold]
      obtain ⟨mem', hdel⟩ := delete_isSome memory index id (h.index_lt hidx)
      refine ⟨mem', hdel, bijection_delete memory mem' index id h hidx hdel,
        (messages_delete memory mem' index id hdel).2, ?_⟩
      rw [(messages_delete memory mem' index id hdel).1, hp, Int.toNat_ofNat]
      have := eraseIdx_eq_filter
        (fun m : data.Message => decide (m.Created < cutoff) && decide (m.ID = id))
        memory.Messages p hplt (by
          intro q a hq
          rw [← honly q a hq]
          simp only [Bool.and_eq_true, decide_eq_true_eq]
          constructor
          · exact fun hh => hh.2
          · intro haid
            have hqp := (honly q a hq).1 haid
            subst hqp
            rw [hmp] at hq; cases hq
            exact ⟨hold, haid⟩)
      exact this
    · rw [if_neg hold]
      refine ⟨memory, rfl, h, rfl, ?_⟩
      symm
      rw [List.filter_eq_self]
      intro m hm
      obtain ⟨q, hq⟩ := List.mem_iff_getElem?.1 hm
      by_cases hmid : m.ID = id
      · have hqp := (honly q m hq).1 hmid
        subst hqp
        rw [hmp] at hq; cases hq
        simp [hold]
      · simp [hmid]

/-- The loop of the sweep over any visiting order, from a state in
bijection. -/
theorem sweep_fold_spec (cutoff : Int) :
    ∀ (order : List String) (memory : InMemory), Bijection memory →
      ∃ mem', order.foldlM (sweepStep cutoff) memory = some mem' ∧ Bijection mem' ∧
        mem'.TTL = memory.TTL ∧
        mem'.Messages =
          memory.Messages.filter (fun m => !(decide (m.Created < cutoff) && decide (m.ID ∈ order))) := by
  intro order
  induction order with
  | nil =>
    intro memory h
    exact ⟨memory, rfl, h, rfl, by simp⟩
  | cons id rest ih =>
    intro memory h
    obtain ⟨m1, hs1, hb1, ht1, hm1⟩ := sweepStep_spec cutoff memory id h
    obtain ⟨m2, hs2, hb2, ht2, hm2⟩ := ih m1 hb1
    refine ⟨m2, ?_, hb2, ht2.trans ht1, ?_⟩
    · rw [List.foldlM_cons, hs1]
      exact hs2
    · rw [hm2, hm1, List.filter_filter]
      apply List.filter_congr
      intro m _
      by_cases ho : m.Created < cutoff <;> by_cases hi : m.ID = id <;>
        by_cases hr : m.ID ∈ rest <;> simp [ho, hi, hr]

/-! ## Sequences of calls -/

theorem call_bijection (memory : InMemory) (c : Call) (h : Bijection memory)
    (hfresh : ∀ m, c = Call.Store m → memory.MessageIDIndex.get? m.ID = none) :
    ∃ next, memory.call c = some next ∧ Bijection next := by
  cases c with
  | Store m => exact ⟨_, rfl, bijection_store memory m h (hfresh m rfl)⟩
  | DeleteOne id =>
    obtain ⟨mem', e, hd⟩ := deleteOne_isSome memory id h
    exact ⟨mem', by simp [InMemory.call, hd], bijection_deleteOne memory mem' id e h hd⟩
  | DeleteAll => exact ⟨_, rfl, bijection_deleteAll memory⟩
  | cleanupOldMessages now order =>
    obtain ⟨mem', hs, hb, _, _⟩ := sweep_fold_spec (deleteTime now memory.TTL) order memory h
    exact ⟨mem', hs, hb⟩

theorem run_bijection :
    ∀ (calls : List Call) (memory : InMemory), Bijection memory →
      freshStores memory calls = true → ∃ s, memory.run calls = some s ∧ Bijection s := by
  intro calls
  induction calls with
  | nil => intro memory h _; exact ⟨memory, rfl, h⟩
  | cons c cs ih =>
    intro memory h hf
    simp only [freshStores, Bool.and_eq_true] at hf
    obtain ⟨hf1, hf2⟩ := hf
    obtain ⟨next, hnext, hb⟩ := call_bijection memory c h (by
      rintro m rfl
      simpa using hf1)
    rw [hnext] at hf2
    obtain ⟨s, hs, hbs⟩ := ih next hb hf2
    refine ⟨s, ?_, hbs⟩
    unfold InMemory.run at hs ⊢
    rw [List.foldlM_cons, hnext]
    exact hs

/-! ## Pagination of `List` and `Search` -/

theorem List_page (memory : InMemory) (start limit : Int)
    (h0 : 0 ≤ start) (h1 : start < memory.Messages.length) (h2 : 0 ≤ limit)
    (hl : IsInt limit) (hn : IsInt memory.Messages.length) :
    memory.List start limit
      = some ((memory.Messages.reverse.drop start.toNat).take limit.toNat, none) := by
  have key := page_eq memory.Messages start limit h0 h1 h2 hl hn
  unfold InMemory.List
  rw [if_neg (by omega)]
  simp only at key ⊢
  rw [key]
  rfl

theorem Search_page (memory : InMemory) (kind query : String) (start limit : Int)
    (h0 : 0 ≤ start)
    (h1 : start < (memory.Messages.filter (doAppend caseRanges kind (toLower caseRanges query))).length)
    (h2 : 0 ≤ limit) (hl : IsInt limit)
    (hn : IsInt (memory.Messages.filter (doAppend caseRanges kind (toLower caseRanges query))).length) :
    memory.Search caseRanges kind query start limit
      = some (((memory.Messages.filter (doAppend caseRanges kind (toLower caseRanges query))).reverse.drop
          start.toNat).take limit.toNat,
        ((memory.Messages.filter (doAppend caseRanges kind (toLower caseRanges query))).length : Int), none) := by
  have key := page_eq (memory.Messages.filter (doAppend caseRanges kind (toLower caseRanges query)))
    start limit h0 h1 h2 hl hn
  unfold InMemory.Search
  simp only at key ⊢
  rw [if_neg (by omega), key]
  rfl

theorem page_length {α : Type} (xs : List α) (s l : Nat) :
    ((xs.reverse.drop s).take l).length = min l (xs.length - s) := by
  simp

theorem page_getElem? {α : Type} (xs : List α) (s l k : Nat)
    (hk : k < min l (xs.length - s)) :
    ((xs.reverse.drop s).take l)[k]? = xs[xs.length - 1 - s - k]? := by
  rw [List.getElem?_take_of_lt (by omega), List.getElem?_drop,
    List.getElem?_reverse (by omega)]
  congr 1
  omega

/-! ## ASCII strings do not consult the case table -/

theorem toLower_of_ascii (t1 t2 : Char → Char) (s : String) (h : asciiString s = true) :
    toLower t1 s = toLower t2 s := by
  unfold toLower
  congr 1
  apply List.map_congr_left
  intro c hc
  have hc' : c.val ≤ 127 := by
    have := List.all_eq_true.1 h c hc
    simpa using this
  simp [unicodeToLower, hc']

theorem any_congr_of_mem {α : Type} (l : List α) (f g : α → Bool)
    (h : ∀ x ∈ l, f x = g x) : l.any f = l.any g := by
  induction l with
  | nil => rfl
  | cons x t ih =>
    simp only [List.any_cons]
    rw [h x (List.mem_cons_self x t), ih (fun y hy => h y (List.mem_cons_of_mem x hy))]

theorem mem_of_lookup_eq_some {β : Type} (l : List (String × β)) (k : String) (v : β)
    (h : l.lookup k = some v) : (k, v) ∈ l := by
  induction l with
  | nil => simp at h
  | cons e t ih =>
    obtain ⟨a, b⟩ := e
    by_cases hk : k = a
    · subst hk
      simp [List.lookup_cons] at h
      subst h
      exact List.mem_cons_self _ _
    · have : (k == a) = false := by simpa using hk
      simp only [List.lookup_cons, this] at h
      exact List.mem_cons_of_mem _ (ih h)

theorem doAppend_of_ascii (t1 t2 : Char → Char) (kind query : String) (m : data.Message)
    (h : asciiMessage m = true) : doAppend t1 kind query m = doAppend t2 kind query m := by
  simp only [asciiMessage, Bool.and_eq_true] at h
  obtain ⟨⟨⟨hfrom, hto⟩, hhdr⟩, hbody⟩ := h
  have hhdr' : ∀ hdr ∈ m.Content.Headers, ∀ v ∈ hdr.2, asciiString v = true := by
    intro hdr hmem v hv
    exact List.all_eq_true.1 (List.all_eq_true.1 hhdr hdr hmem) v hv
  have hlookup : ∀ (k : String) (vals : List String), m.Content.Headers.lookup k = some vals →
      (vals.any fun v => contains (toLower t1 v) query)
        = (vals.any fun v => contains (toLower t2 v) query) := by
    intro k vals hk
    apply any_congr_of_mem
    intro v hv
    rw [toLower_of_ascii t1 t2 v (hhdr' _ (mem_of_lookup_eq_some _ k vals hk) v hv)]
  have hrcpt : (m.To.any fun p => contains (toLower t1 (p.Mailbox ++ "@" ++ p.Domain)) query)
      = (m.To.any fun p => contains (toLower t2 (p.Mailbox ++ "@" ++ p.Domain)) query) := by
    apply any_congr_of_mem
    intro p hp
    rw [toLower_of_ascii t1 t2 _ (List.all_eq_true.1 hto p hp)]
  have hall : (m.Content.Headers.any fun hdr => hdr.2.any fun v => contains (toLower t1 v) query)
      = (m.Content.Headers.any fun hdr => hdr.2.any fun v => contains (toLower t2 v) query) := by
    apply any_congr_of_mem
    intro hdr hmem
    apply any_congr_of_mem
    intro v hv
    rw [toLower_of_ascii t1 t2 v (hhdr' hdr hmem v hv)]
  unfold doAppend
  rw [hrcpt, toLower_of_ascii t1 t2 _ hfrom, toLower_of_ascii t1 t2 _ hbody, hall]
  cases hl1 : m.Content.Headers.lookup "To" with
  | none =>
    cases hl2 : m.Content.Headers.lookup "From" with
    | none => rfl
    | some v2 => simp only [hlookup "From" v2 hl2]
  | some v1 =>
    cases hl2 : m.Content.Headers.lookup "From" with
    | none => simp only [hlookup "To" v1 hl1]
    | some v2 => simp only [hlookup "To" v1 hl1, hlookup "From" v2 hl2]

theorem filter_doAppend_of_ascii (t1 t2 : Char → Char) (xs : List data.Message)
    (kind query : String) (hq : asciiString query = true)
    (hm : xs.all asciiMessage = true) :
    xs.filter (doAppend t1 kind (toLower t1 query))
      = xs.filter (doAppend t2 kind (toLower t2 query)) := by
  rw [toLower_of_ascii t1 t2 query hq]
  apply List.filter_congr
  intro m hmem
  exact doAppend_of_ascii t1 t2 kind _ m (List.all_eq_true.1 hm m hmem)

/-- On ASCII data the result of `Search` does not depend on the case table:
`unicode.ToLower` handles ASCII runes without it. -/
theorem Search_of_ascii (t1 t2 : Char → Char) (memory : InMemory) (kind query : String)
    (start limit : Int) (hq : asciiString query = true)
    (hm : memory.Messages.all asciiMessage = true) :
    memory.Search t1 kind query start limit = memory.Search t2 kind query start limit := by
  unfold InMemory.Search
  simp only [filter_doAppend_of_ascii t1 t2 memory.Messages kind query hq hm]

/-! ## The claims -/

/-- C1, as stated, fails: storing two messages with the same identifier in
an empty store yields two messages and one key. -/
theorem run_store_twice_len_ne :
    ∃ s, (CreateInMemory 0).run
        [Call.Store (exampleMessage "a" 0), Call.Store (exampleMessage "a" 0)] = some s ∧
      ¬ (s.Messages.length = s.MessageIDIndex.len) :=
  ⟨_, rfl, by decide⟩

/-- C1, amended: for every finite sequence of `Store`, `DeleteOne` and
`DeleteAll` calls (and also runs of the sweep) applied to a freshly created
store, in which every `Store` call inserts a message whose identifier is not
currently a key of the index, the calls all return, and the resulting state
has as many messages as keys and `Messages[MessageIDIndex[id]].ID == id` for
every key `id`. -/
theorem run_len_eq_and_index_points_to_id (ttl : Int) (calls : List Call)
    (hfresh : freshStores (CreateInMemory ttl) calls = true) :
    ∃ s, (CreateInMemory ttl).run calls = some s ∧
      s.Messages.length = s.MessageIDIndex.len ∧
      ∀ (id : String) (i : Int), s.MessageIDIndex.get? id = some i →
        (index? s.Messages i).map (fun m => m.ID) = some id := by
  obtain ⟨s, hs, hb⟩ := run_bijection calls (CreateInMemory ttl) (bijection_create ttl) hfresh
  exact ⟨s, hs, hb.len_eq.symm, fun id i hi => (hb id i).1 hi⟩

/-- An instance of the counting invariant on a run of five calls. -/
theorem run_len_eq_and_index_points_to_id_witness :
    ∃ s, (CreateInMemory 0).run
        [Call.Store (exampleMessage "a" 0), Call.Store (exampleMessage "b" 1),
          Call.DeleteOne "a", Call.DeleteAll, Call.Store (exampleMessage "a" 2)] = some s ∧
      s.Messages.length = s.MessageIDIndex.len ∧
      ∀ (id : String) (i : Int), s.MessageIDIndex.get? id = some i →
        (index? s.Messages i).map (fun m => m.ID) = some id :=
  run_len_eq_and_index_points_to_id 0 _ (by decide)

/-- C2: in every state reached from the empty store by `Store`, `DeleteOne`,
`DeleteAll` and `cleanupOldMessages` calls (the sweep visiting the keys in any
order), where each `Store` call inserts a message whose identifier is not
currently a key, the calls all return and the index and the vector are in
bijection: `MessageIDIndex[id] == i` iff `i` is a position of `Messages`
holding a message with identifier `id`; so the stored identifiers are
pairwise distinct and every position is indexed. -/
theorem run_bijection_of_fresh (ttl : Int) (calls : List Call)
    (hfresh : freshStores (CreateInMemory ttl) calls = true) :
    ∃ s, (CreateInMemory ttl).run calls = some s ∧
      (∀ (id : String) (i : Int),
        s.MessageIDIndex.get? id = some i ↔
          0 ≤ i ∧ i < s.Messages.length ∧ ∃ m, s.Messages[i.toNat]? = some m ∧ m.ID = id) ∧
      (s.Messages.map (fun m => m.ID)).Nodup ∧
      (∀ (n : Nat) (m : data.Message), s.Messages[n]? = some m →
        s.MessageIDIndex.get? m.ID = some (n : Int)) := by
  obtain ⟨s, hs, hb⟩ := run_bijection calls (CreateInMemory ttl) (bijection_create ttl) hfresh
  refine ⟨s, hs, ?_, hb.ids_nodup, ?_⟩
  · intro id i
    rw [hb id i, index?_map_eq_some_iff]
    constructor
    · rintro ⟨n, rfl, m, hm, hmid⟩
      have := (List.getElem?_eq_some.1 hm).1
      exact ⟨by omega, by omega, m, by simpa using hm, hmid⟩
    · rintro ⟨h0, _, m, hm, hmid⟩
      exact ⟨i.toNat, by omega, m, hm, hmid⟩
  · intro n m hm
    exact (hb m.ID n).2 ((index?_map_eq_some_iff _ _ _).2 ⟨n, rfl, m, hm, rfl⟩)

/-- An instance of the bijection on a run that includes a sweep. -/
theorem run_bijection_of_fresh_witness :
    ∃ s, (CreateInMemory 1).run
        [Call.Store (exampleMessage "a" 0), Call.Store (exampleMessage "b" 5),
          Call.Store (exampleMessage "c" 1), Call.cleanupOldMessages 3000000000 ["c", "a", "b"],
          Call.DeleteOne "c", Call.Store (exampleMessage "a" 9)] = some s ∧
      (∀ (id : String) (i : Int),
        s.MessageIDIndex.get? id = some i ↔
          0 ≤ i ∧ i < s.Messages.length ∧ ∃ m, s.Messages[i.toNat]? = some m ∧ m.ID = id) ∧
      (s.Messages.map (fun m => m.ID)).Nodup ∧
      (∀ (n : Nat) (m : data.Message), s.Messages[n]? = some m →
        s.MessageIDIndex.get? m.ID = some (n : Int)) :=
  run_bijection_of_fresh 1 _ (by decide)

/-- C3: for every store state and every message `m`, `Store(m)` followed
immediately by `Load(m.ID)` returns `m` and no error. -/
theorem Load_after_Store (memory : InMemory) (m : data.Message) :
    (memory.Store m).1.Load m.ID = some (some m, none) := by
  simp only [InMemory.Load, InMemory.Store, GoMap.get?_set, if_true]
  have : ((memory.Messages ++ [m]).length : Int) - 1 = (memory.Messages.length : Nat) := by
    simp
  rw [this, index?_natCast]
  simp

/-- C4: for every store holding `n` messages and all `start`, `limit` with
`0 ≤ start < n` and `limit ≥ 0`, `List(start, limit)` returns
`take limit (drop start (reverse Messages))`, which has `min(limit, n - start)`
messages, the `k`-th being `Messages[n - 1 - start - k]`.  In particular
`List(0, 0)` is empty, and after inserting `m1`, `m2`, `m3` in order
`List(0, 2) = [m3, m2]` and `List(2, 10) = [m1]`. -/
theorem List_newest_first (memory : InMemory) (start limit : Int)
    (h0 : 0 ≤ start) (h1 : start < memory.Messages.length) (h2 : 0 ≤ limit)
    (hl : IsInt limit) (hn : IsInt memory.Messages.length) :
    memory.List start limit
        = some ((memory.Messages.reverse.drop start.toNat).take limit.toNat, none) ∧
      ((memory.Messages.reverse.drop start.toNat).take limit.toNat).length
        = min limit.toNat (memory.Messages.length - start.toNat) ∧
      (∀ k : Nat, k < min limit.toNat (memory.Messages.length - start.toNat) →
        ((memory.Messages.reverse.drop start.toNat).take limit.toNat)[k]?
          = memory.Messages[memory.Messages.length - 1 - start.toNat - k]?) ∧
      (∀ other : InMemory, IsInt other.Messages.length → other.List 0 0 = some ([], none)) ∧
      (∀ (ttl : Int) (m1 m2 m3 : data.Message),
        ((((CreateInMemory ttl).Store m1).1.Store m2).1.Store m3).1.List 0 2
            = some ([m3, m2], none) ∧
          ((((CreateInMemory ttl).Store m1).1.Store m2).1.Store m3).1.List 2 10
            = some ([m1], none)) := by
  refine ⟨List_page memory start limit h0 h1 h2 hl hn, page_length _ _ _,
    fun k hk => page_getElem? _ _ _ k hk, ?_, ?_⟩
  · intro other ho
    by_cases hz : other.Messages.length = 0
    · simp [InMemory.List, hz]
    · rw [List_page other 0 0 (le_refl 0) (by omega) (le_refl 0) (by decide) ho]
      simp
  · intro ttl m1 m2 m3
    constructor
    · rw [List_page _ 0 2 (by decide) (by simp [InMemory.Store, CreateInMemory]) (by decide)
        (by decide) (by simp [InMemory.Store, CreateInMemory, IsInt])]
      simp [InMemory.Store, CreateInMemory]
    · rw [List_page _ 2 10 (by decide) (by simp [InMemory.Store, CreateInMemory]) (by decide)
        (by decide) (by simp [InMemory.Store, CreateInMemory, IsInt])]
      simp [InMemory.Store, CreateInMemory]

/-- An instance of the listing page on a store of two messages. -/
theorem List_newest_first_witness :
    (((CreateInMemory 0).Store (exampleMessage "a" 0)).1.Store (exampleMessage "b" 1)).1.List 1 5
      = some ([exampleMessage "a" 0], none) :=
  (List_newest_first
    (((CreateInMemory 0).Store (exampleMessage "a" 0)).1.Store (exampleMessage "b" 1)).1 1 5
    (by decide) (by decide) (by decide) (by decide) (by decide)).1

/-- C5, evaluated at a failing input: in a store holding one message,
`List(1, 10)` (start equal to the count) returns that message instead of an
empty slice; a start greater than the count does return an empty slice. -/
theorem List_start_eq_count_returns_oldest :
    ((CreateInMemory 0).Store (exampleMessage "a" 0)).1.Count = 1 ∧
      ((CreateInMemory 0).Store (exampleMessage "a" 0)).1.List 1 10
        = some ([exampleMessage "a" 0], none) ∧
      ((CreateInMemory 0).Store (exampleMessage "a" 0)).1.List 2 10 = some ([], none) := by
  decide

/-- C6: for every store, kind, query and all `start`, `limit` with
`0 ≤ start < t` and `limit ≥ 0`, where `matches` is the subsequence of
`Messages` (in insertion order) matching `(kind, query)` and `t` its length,
`Search(kind, query, start, limit)` returns the total `t` and the slice
`take limit (drop start (reverse matches))`: newest match first, of length
`min(limit, t - start)`. -/
theorem Search_newest_first (memory : InMemory) (kind query : String) (start limit : Int)
    (h0 : 0 ≤ start)
    (h1 : start < (memory.Messages.filter (doAppend caseRanges kind (toLower caseRanges query))).length)
    (h2 : 0 ≤ limit) (hl : IsInt limit)
    (hn : IsInt (memory.Messages.filter (doAppend caseRanges kind (toLower caseRanges query))).length) :
    memory.Search caseRanges kind query start limit
        = some (((memory.Messages.filter (doAppend caseRanges kind (toLower caseRanges query))).reverse.drop
            start.toNat).take limit.toNat,
          ((memory.Messages.filter (doAppend caseRanges kind (toLower caseRanges query))).length : Int), none) ∧
      (((memory.Messages.filter (doAppend caseRanges kind (toLower caseRanges query))).reverse.drop
            start.toNat).take limit.toNat).length
        = min limit.toNat
            ((memory.Messages.filter (doAppend caseRanges kind (toLower caseRanges query))).length - start.toNat) :=
  ⟨Search_page memory kind query start limit h0 h1 h2 hl hn, page_length _ _ _⟩

/-- An instance of the search page on a store of two messages. -/
theorem Search_newest_first_witness :
    (((CreateInMemory 0).Store (exampleMessage "a" 0)).1.Store (exampleMessage "b" 1)).1.Search latin1CaseRanges
        "from" "ALICE" 1 5
      = some ([exampleMessage "a" 0], 2, none) :=
  (Search_newest_first
    (((CreateInMemory 0).Store (exampleMessage "a" 0)).1.Store (exampleMessage "b" 1)).1
    "from" "ALICE" 1 5 (by decide) (by decide) (by decide) (by decide) (by decide)).1

/-- C7, evaluated at failing inputs: in a store holding two messages that
both match, `Search` with `start = 3` (greater than the number of matches)
returns an empty slice with total `0` instead of `2`, and with `start = 2`
(equal to the number of matches) it returns the oldest match instead of an
empty slice. -/
theorem Search_start_ge_total_diverges :
    (((CreateInMemory 0).Store (exampleMessage "a" 0)).1.Store (exampleMessage "b" 1)).1.Search caseRanges
        "from" "alice" 3 10 = some ([], 0, none) ∧
      (((CreateInMemory 0).Store (exampleMessage "a" 0)).1.Store (exampleMessage "b" 1)).1.Search caseRanges
        "from" "alice" 2 10 = some ([exampleMessage "a" 0], 2, none) ∧
      ((((CreateInMemory 0).Store (exampleMessage "a" 0)).1.Store
        (exampleMessage "b" 1)).1.Messages.filter
          (doAppend caseRanges "from" (toLower caseRanges "alice"))).length
        = 2 := by
  refine ⟨?_, ?_, ?_⟩
  · rw [Search_of_ascii caseRanges latin1CaseRanges _ "from" "alice" 3 10 (by decide)
      (by decide)]
    decide
  · rw [Search_of_ascii caseRanges latin1CaseRanges _ "from" "alice" 2 10 (by decide)
      (by decide)]
    decide
  · rw [filter_doAppend_of_ascii caseRanges latin1CaseRanges _ "from" "alice" (by decide)
      (by decide)]
    decide

/-- C8: `DeleteOne(id)` for an `id` that is not a key of the index returns the
not-found error and leaves the store exactly as it was. -/
theorem DeleteOne_absent (memory : InMemory) (id : String)
    (h : memory.MessageIDIndex.get? id = none) :
    memory.DeleteOne id = some (memory, some GoError.messageNotFound) := by
  unfold InMemory.DeleteOne
  rw [h]

/-- An instance of the not-found case on a store of one message. -/
theorem DeleteOne_absent_witness :
    ((CreateInMemory 0).Store (exampleMessage "a" 0)).1.DeleteOne "b"
      = some (((CreateInMemory 0).Store (exampleMessage "a" 0)).1, some GoError.messageNotFound) :=
  DeleteOne_absent _ "b" (by decide)

/-- C9: in a store satisfying the index/vector bijection, `DeleteOne(id)` for
a stored `id` at position `i` returns no error; the new vector is the old one
with position `i` removed; `id` is no longer a key; every key with old index
greater than `i` maps to its old index minus one; every key with old index
less than `i` is unchanged; no key is added.  Afterwards `Load(id)` is absent
and `Load` of every other stored identifier returns the same message as
before; the bijection holds again. -/
theorem DeleteOne_stored (memory : InMemory) (id : String) (i : Int)
    (h : Bijection memory) (hid : memory.MessageIDIndex.get? id = some i) :
    ∃ mem', memory.DeleteOne id = some (mem', none) ∧
      mem'.Messages = memory.Messages.eraseIdx i.toNat ∧
      mem'.MessageIDIndex.get? id = none ∧
      (∀ (k : String) (v : Int), memory.MessageIDIndex.get? k = some v → i < v →
        mem'.MessageIDIndex.get? k = some (v - 1)) ∧
      (∀ (k : String) (v : Int), memory.MessageIDIndex.get? k = some v → v < i →
        mem'.MessageIDIndex.get? k = some v) ∧
      (∀ k : String, memory.MessageIDIndex.get? k = none →
        mem'.MessageIDIndex.get? k = none) ∧
      mem'.Load id = some (none, none) ∧
      (∀ (k : String) (v : Int), k ≠ id → memory.MessageIDIndex.get? k = some v →
        ∃ m, memory.Load k = some (some m, none) ∧ mem'.Load k = some (some m, none)) ∧
      Bijection mem' := by
  obtain ⟨mem', hdel⟩ := delete_isSome memory i id (h.index_lt hid)
  have hget := fun k => get?_delete memory mem' i id k hdel
  have hmsgs := (messages_delete memory mem' i id hdel).1
  have hb' := bijection_delete memory mem' i id h hid hdel
  have hne : ∀ (k : String) (v : Int), memory.MessageIDIndex.get? k = some v → v ≠ i →
      k ≠ id := by
    rintro k v hk hvi rfl
    rw [hid] at hk
    exact hvi (Option.some.inj hk).symm
  refine ⟨mem', ?_, hmsgs, ?_, ?_, ?_, ?_, ?_, ?_, hb'⟩
  · simp [InMemory.DeleteOne, hid, hdel]
  · rw [hget]; simp
  · intro k v hk hv
    rw [hget, if_neg (hne k v hk (by omega)), hk]
    simp only [Option.map_some', Option.some.injEq]
    rw [if_pos (by omega)]
  · intro k v hk hv
    rw [hget, if_neg (hne k v hk (by omega)), hk]
    simp only [Option.map_some', Option.some.injEq]
    rw [if_neg (by omega)]
  · intro k hk
    rw [hget, hk]
    split <;> rfl
  · simp [InMemory.Load, hget]
  · intro k v hkid hk
    obtain ⟨n, hn, m, hm, hmk⟩ := (index?_map_eq_some_iff _ _ _).1 ((h k v).1 hk)
    obtain ⟨p, hp, mp, hmp, hmpid⟩ := (index?_map_eq_some_iff _ _ _).1 ((h id i).1 hid)
    subst hn hp
    have hnp : n ≠ p := by
      rintro rfl
      rw [hmp] at hm
      cases hm
      exact hkid (hmk.symm.trans hmpid)
    refine ⟨m, ?_, ?_⟩
    · simp [InMemory.Load, hk, index?_natCast, hm]
    · simp only [InMemory.Load, hget, if_neg hkid, hk, Option.map_some', hmsgs, Int.toNat_ofNat]
      by_cases hgt : (n : Int) > (p : Int)
      · rw [if_pos hgt]
        have e : (n : Int) - 1 = ((n - 1 : Nat) : Int) := by omega
        rw [e, index?_natCast, List.getElem?_eraseIdx, if_neg (by omega)]
        have : n - 1 + 1 = n := by omega
        rw [this, hm]; rfl
      · rw [if_neg hgt, index?_natCast, List.getElem?_eraseIdx, if_pos (by omega), hm]; rfl

/-- An instance of the deletion of a stored identifier on a store of two messages. -/
theorem DeleteOne_stored_witness :
    ∃ mem', (((CreateInMemory 0).Store (exampleMessage "a" 0)).1.Store
        (exampleMessage "b" 1)).1.DeleteOne "a" = some (mem', none) ∧
      mem'.Messages = [exampleMessage "b" 1] ∧ mem'.Load "b" = some (some (exampleMessage "b" 1), none) := by
  obtain ⟨mem', h1, h2, _, _, _, _, _, h8, _⟩ := DeleteOne_stored
    (((CreateInMemory 0).Store (exampleMessage "a" 0)).1.Store (exampleMessage "b" 1)).1 "a" 0
    (bijection_store _ _ (bijection_store _ _ (bijection_create 0) (by decide)) (by decide))
    (by decide)
  obtain ⟨m, hm1, hm2⟩ := h8 "b" 1 (by decide) (by decide)
  refine ⟨mem', h1, by rw [h2]; decide, ?_⟩
  rw [hm2]
  have : (((CreateInMemory 0).Store (exampleMessage "a" 0)).1.Store
      (exampleMessage "b" 1)).1.Load "b" = some (some (exampleMessage "b" 1), none) := by decide
  rw [this] at hm1
  cases hm1
  rfl

/-- C10: in a store satisfying the index/vector bijection, one run of
`cleanupOldMessages` at instant `now`, visiting the keys in any order, returns
and leaves exactly the messages whose `Created` is not before the cutoff, in
their original relative order; no remaining message is older than the
cutoff, and the bijection holds again.  The cutoff is `now` minus `TTL`
seconds whenever `TTL` seconds is representable as a `time.Duration`. -/
theorem cleanupOldMessages_spec (memory : InMemory) (now : Int) (order : List String)
    (h : Bijection memory) (horder : order.Perm memory.MessageIDIndex.keys) :
    ∃ mem', memory.cleanupOldMessages now order = some mem' ∧
      mem'.Messages
        = memory.Messages.filter (fun m => !decide (m.Created < deleteTime now memory.TTL)) ∧
      (∀ m ∈ mem'.Messages, ¬ m.Created < deleteTime now memory.TTL) ∧
      (∀ m ∈ memory.Messages, ¬ m.Created < deleteTime now memory.TTL → m ∈ mem'.Messages) ∧
      Bijection mem' ∧
      (-9223372036 ≤ memory.TTL ∧ memory.TTL ≤ 9223372036 →
        deleteTime now memory.TTL = now - memory.TTL * 1000000000) := by
  obtain ⟨mem', hs, hb, _, hm⟩ := sweep_fold_spec (deleteTime now memory.TTL) order memory h
  have hfilter : mem'.Messages
      = memory.Messages.filter (fun m => !decide (m.Created < deleteTime now memory.TTL)) := by
    rw [hm]
    apply List.filter_congr
    intro m hmem
    have : m.ID ∈ order :=
      horder.mem_iff.2 ((h.mem_keys_iff_mem_ids m.ID).2 (List.mem_map.2 ⟨m, hmem, rfl⟩))
    simp [this]
  refine ⟨mem', hs, hfilter, ?_, ?_, hb, ?_⟩
  · intro m hmem
    rw [hfilter, List.mem_filter] at hmem
    simpa using hmem.2
  · intro m hmem hnew
    rw [hfilter, List.mem_filter]
    exact ⟨hmem, by simpa using hnew⟩
  · rintro ⟨h1, h2⟩
    unfold deleteTime wrapInt
    omega

/-- An instance of the sweep on a store holding two old messages and one
recent message: the second deletion reads the index shifted by the first. -/
theorem cleanupOldMessages_spec_witness :
    ∃ mem', ((((CreateInMemory 1).Store (exampleMessage "a" 0)).1.Store
        (exampleMessage "b" 1)).1.Store (exampleMessage "c" 5000000000)).1.cleanupOldMessages
          3000000000 ["a", "b", "c"] = some mem' ∧
      mem'.Messages = [exampleMessage "c" 5000000000] := by
  obtain ⟨mem', h1, h2, _⟩ := cleanupOldMessages_spec
    ((((CreateInMemory 1).Store (exampleMessage "a" 0)).1.Store
      (exampleMessage "b" 1)).1.Store (exampleMessage "c" 5000000000)).1
    3000000000 ["a", "b", "c"]
    (bijection_store _ _ (bijection_store _ _ (bijection_store _ _ (bijection_create 1)
      (by decide)) (by decide)) (by decide))
    (List.Perm.refl _)
  exact ⟨mem', h1, by rw [h2]; decide⟩

/-! ## Substring matching -/

theorem isPrefixOf_iff_append (p : List Char) :
    ∀ t : List Char, p.isPrefixOf t = true ↔ ∃ b, t = p ++ b := by
  induction p with
  | nil => intro t; simp
  | cons c p ih =>
    intro t
    cases t with
    | nil => simp
    | cons d t =>
      simp only [List.isPrefixOf, Bool.and_eq_true, beq_iff_eq, ih t, List.cons_append,
        List.cons.injEq]
      constructor
      · rintro ⟨rfl, b, rfl⟩
        exact ⟨b, rfl, rfl⟩
      · rintro ⟨b, rfl, rfl⟩
        exact ⟨rfl, b, rfl⟩

/-- The model of `strings.Contains` decides the substring relation. -/
theorem contains_iff_isSubstring (s sub : String) :
    contains s sub = true ↔ IsSubstring sub s := by
  unfold contains IsSubstring
  rw [List.any_eq_true]
  constructor
  · rintro ⟨t, ht, hp⟩
    obtain ⟨a, ha⟩ := (List.mem_tails _ _).1 ht
    obtain ⟨b, hb⟩ := (isPrefixOf_iff_append _ _).1 hp
    exact ⟨a, b, by rw [← ha, hb, List.append_assoc]⟩
  · rintro ⟨a, b, h⟩
    refine ⟨sub.data ++ b, (List.mem_tails _ _).2 ⟨a, by rw [h, List.append_assoc]⟩, ?_⟩
    exact (isPrefixOf_iff_append _ _).2 ⟨b, rfl⟩

theorem contains_empty (s : String) : contains s "" = true :=
  (contains_iff_isSubstring s "").2 ⟨[], s.data, rfl⟩

theorem toLower_empty : toLower caseRanges "" = "" := rfl

/-! ## The filter of `Search` -/

theorem doAppend_to_iff (query : String) (m : data.Message) :
    doAppend caseRanges "to" query m = true ↔
      (∃ p ∈ m.To, IsSubstring query (toLower caseRanges (p.Mailbox ++ "@" ++ p.Domain))) ∨
      ∃ hdr, m.Content.Headers.lookup "To" = some hdr ∧
        ∃ v ∈ hdr, IsSubstring query (toLower caseRanges v) := by
  simp only [doAppend, if_true, ← contains_iff_isSubstring]
  by_cases h1 : (m.To.any fun p => contains (toLower caseRanges (p.Mailbox ++ "@" ++ p.Domain)) query) = true
  · rw [if_pos h1]
    simp only [true_iff]
    left
    simpa using h1
  · rw [if_neg h1]
    have h1' : ¬ ∃ p ∈ m.To, contains (toLower caseRanges (p.Mailbox ++ "@" ++ p.Domain)) query = true := by
      simpa using h1
    cases hl : m.Content.Headers.lookup "To" with
    | none => simp [h1']
    | some hdr => simp [h1']

theorem doAppend_from_iff (query : String) (m : data.Message) :
    doAppend caseRanges "from" query m = true ↔
      IsSubstring query (toLower caseRanges (m.From.Mailbox ++ "@" ++ m.From.Domain)) ∨
      ∃ hdr, m.Content.Headers.lookup "From" = some hdr ∧
        ∃ v ∈ hdr, IsSubstring query (toLower caseRanges v) := by
  have hk : ¬ ("from" = "to") := by decide
  simp only [doAppend, if_neg hk, if_true, ← contains_iff_isSubstring]
  by_cases h1 : contains (toLower caseRanges (m.From.Mailbox ++ "@" ++ m.From.Domain)) query = true
  · rw [if_pos h1]
    simp [h1]
  · rw [if_neg h1]
    cases hl : m.Content.Headers.lookup "From" with
    | none => simp [h1]
    | some hdr => simp [h1]

theorem doAppend_containing_iff (query : String) (m : data.Message) :
    doAppend caseRanges "containing" query m = true ↔
      IsSubstring query (toLower caseRanges m.Content.Body) ∨
      ∃ hdr ∈ m.Content.Headers, ∃ v ∈ hdr.2, IsSubstring query (toLower caseRanges v) := by
  have hk1 : ¬ ("containing" = "to") := by decide
  have hk2 : ¬ ("containing" = "from") := by decide
  simp only [doAppend, if_neg hk1, if_neg hk2, if_true, ← contains_iff_isSubstring]
  by_cases h1 : contains (toLower caseRanges m.Content.Body) query = true
  · rw [if_pos h1]
    simp [h1]
  · rw [if_neg h1]
    simp [h1]

theorem doAppend_unknown_kind (kind query : String) (m : data.Message)
    (h1 : kind ≠ "to") (h2 : kind ≠ "from") (h3 : kind ≠ "containing") :
    doAppend caseRanges kind query m = false := by
  simp [doAppend, h1, h2, h3]

theorem Search_of_filter_eq_nil (memory : InMemory) (kind query : String) (start limit : Int)
    (h : memory.Messages.filter (doAppend caseRanges kind (toLower caseRanges query)) = []) :
    memory.Search caseRanges kind query start limit = some ([], 0, none) := by
  unfold InMemory.Search
  simp [h]

/-- With `start = 0` and a limit that is at least the number of matches,
`Search` returns every match, newest first, and their number. -/
theorem Search_all (memory : InMemory) (kind query : String) (limit : Int)
    (hl : IsInt limit)
    (hn : IsInt (memory.Messages.filter (doAppend caseRanges kind (toLower caseRanges query))).length)
    (hge : ((memory.Messages.filter (doAppend caseRanges kind (toLower caseRanges query))).length : Int) ≤ limit) :
    memory.Search caseRanges kind query 0 limit
      = some ((memory.Messages.filter (doAppend caseRanges kind (toLower caseRanges query))).reverse,
          ((memory.Messages.filter (doAppend caseRanges kind (toLower caseRanges query))).length : Int), none) := by
  by_cases hz : memory.Messages.filter (doAppend caseRanges kind (toLower caseRanges query)) = []
  · rw [Search_of_filter_eq_nil memory kind query 0 limit hz, hz]
    rfl
  · have hpos : 0 < (memory.Messages.filter (doAppend caseRanges kind (toLower caseRanges query))).length :=
      List.length_pos.2 hz
    rw [Search_page memory kind query 0 limit (le_refl 0) (by omega) (by omega) hl hn]
    congr 2
    simp only [Int.toNat_zero, List.drop_zero]
    apply List.take_of_length_le
    rw [List.length_reverse]
    omega

/-- C11: for every store, query, start and limit, and every kind other than
`"to"`, `"from"` and `"containing"`, `Search` returns an empty slice, total `0`
and no error. -/
theorem Search_unknown_kind (memory : InMemory) (kind query : String) (start limit : Int)
    (h1 : kind ≠ "to") (h2 : kind ≠ "from") (h3 : kind ≠ "containing") :
    memory.Search caseRanges kind query start limit = some ([], 0, none) := by
  apply Search_of_filter_eq_nil
  rw [List.filter_eq_nil_iff]
  intro m _
  simp [doAppend_unknown_kind kind (toLower caseRanges query) m h1 h2 h3]

/-- An instance of the unknown kind on a store of one message. -/
theorem Search_unknown_kind_witness :
    ((CreateInMemory 0).Store (exampleMessage "a" 0)).1.Search latin1CaseRanges "subject" "t" 0 10
      = some ([], 0, none) :=
  Search_unknown_kind _ "subject" "t" 0 10 (by decide) (by decide) (by decide)

/-- C12: for kind `"from"`, a stored message is counted as a match by `Search`
exactly when the lower-cased query is a substring of the lower-cased sender
`Mailbox@Domain` or of a lower-cased value of the `From` header: with
`start = 0` and a limit of at least the number of matches, `Search` returns
exactly those stored messages and their number.  With senders `alice@x.com`
and `bob@y.com`, `Search("from", "ALICE", 0, 10)` returns the first message
with total `1`. -/
theorem Search_from_matches (memory : InMemory) (query : String) (limit : Int)
    (hl : IsInt limit)
    (hn : IsInt (memory.Messages.filter (doAppend caseRanges "from" (toLower caseRanges query))).length)
    (hge : ((memory.Messages.filter (doAppend caseRanges "from" (toLower caseRanges query))).length : Int) ≤ limit) :
    memory.Search caseRanges "from" query 0 limit
        = some ((memory.Messages.filter (doAppend caseRanges "from" (toLower caseRanges query))).reverse,
            ((memory.Messages.filter (doAppend caseRanges "from" (toLower caseRanges query))).length : Int), none) ∧
      (∀ m : data.Message,
        m ∈ memory.Messages.filter (doAppend caseRanges "from" (toLower caseRanges query)) ↔
          m ∈ memory.Messages ∧
            (IsSubstring (toLower caseRanges query) (toLower caseRanges (m.From.Mailbox ++ "@" ++ m.From.Domain)) ∨
              ∃ hdr, m.Content.Headers.lookup "From" = some hdr ∧
                ∃ v ∈ hdr, IsSubstring (toLower caseRanges query) (toLower caseRanges v))) ∧
      (((CreateInMemory 0).Store (messageWith "1" ⟨"alice", "x.com"⟩ [] [] "")).1.Store
          (messageWith "2" ⟨"bob", "y.com"⟩ [] [] "")).1.Search caseRanges "from" "ALICE" 0 10
        = some ([messageWith "1" ⟨"alice", "x.com"⟩ [] [] ""], 1, none) := by
  refine ⟨Search_all memory "from" query limit hl hn hge, ?_, ?_⟩
  · intro m
    rw [List.mem_filter, doAppend_from_iff]
  · rw [Search_of_ascii caseRanges latin1CaseRanges _ "from" "ALICE" 0 10 (by decide)
      (by decide)]
    decide

/-- An instance of the `from` search with the Latin-1 excerpt of the case
table: the sender `MÜLLER@x.com` matches the query `müller`, and the header
value `Alice <alice@x.com>` matches no part of it. -/
theorem Search_from_matches_witness :
    (((CreateInMemory 0).Store
        (messageWith "1" ⟨"MÜLLER", "x.com"⟩ [] [] "")).1.Store
        (messageWith "2" ⟨"bob", "y.com"⟩ [] [("From", ["Alice <alice@x.com>"])] "")).1.Search
        latin1CaseRanges "from" "müller" 0 10
      = some ([messageWith "1" ⟨"MÜLLER", "x.com"⟩ [] [] ""], 1, none) :=
  (Search_from_matches _ "müller" 10 (by decide) (by decide) (by decide)).1

/-- C13: for kind `"containing"`, a stored message is counted as a match by
`Search` exactly when the lower-cased query is a substring of the lower-cased
body or of a lower-cased value of some header, whatever its name.  For a
message with body `the quick brown fox` and no headers,
`Search("containing", "QUICK", 0, 10)` returns it and
`Search("containing", "quickx", 0, 10)` returns nothing. -/
theorem Search_containing_matches (memory : InMemory) (query : String) (limit : Int)
    (hl : IsInt limit)
    (hn : IsInt (memory.Messages.filter (doAppend caseRanges "containing" (toLower caseRanges query))).length)
    (hge : ((memory.Messages.filter (doAppend caseRanges "containing" (toLower caseRanges query))).length : Int)
      ≤ limit) :
    memory.Search caseRanges "containing" query 0 limit
        = some ((memory.Messages.filter (doAppend caseRanges "containing" (toLower caseRanges query))).reverse,
            ((memory.Messages.filter (doAppend caseRanges "containing" (toLower caseRanges query))).length : Int),
            none) ∧
      (∀ m : data.Message,
        m ∈ memory.Messages.filter (doAppend caseRanges "containing" (toLower caseRanges query)) ↔
          m ∈ memory.Messages ∧
            (IsSubstring (toLower caseRanges query) (toLower caseRanges m.Content.Body) ∨
              ∃ hdr ∈ m.Content.Headers, ∃ v ∈ hdr.2,
                IsSubstring (toLower caseRanges query) (toLower caseRanges v))) ∧
      ((CreateInMemory 0).Store
          (messageWith "1" ⟨"a", "b"⟩ [] [] "the quick brown fox")).1.Search caseRanges
            "containing" "QUICK" 0 10
        = some ([messageWith "1" ⟨"a", "b"⟩ [] [] "the quick brown fox"], 1, none) ∧
      ((CreateInMemory 0).Store
          (messageWith "1" ⟨"a", "b"⟩ [] [] "the quick brown fox")).1.Search caseRanges
            "containing" "quickx" 0 10
        = some ([], 0, none) := by
  refine ⟨Search_all memory "containing" query limit hl hn hge, ?_, ?_, ?_⟩
  · intro m
    rw [List.mem_filter, doAppend_containing_iff]
  · rw [Search_of_ascii caseRanges latin1CaseRanges _ "containing" "QUICK" 0 10 (by decide)
      (by decide)]
    decide
  · rw [Search_of_ascii caseRanges latin1CaseRanges _ "containing" "quickx" 0 10 (by decide)
      (by decide)]
    decide

/-- An instance of the `containing` search with the Latin-1 excerpt of the
case table: the body `école` matches the query `ÉCOLE`, and a header value
matches it as well. -/
theorem Search_containing_matches_witness :
    (((CreateInMemory 0).Store
        (messageWith "1" ⟨"a", "b"⟩ [] [] "école")).1.Store
        (messageWith "2" ⟨"a", "b"⟩ [] [("X-Note", ["Grande École"])] "body")).1.Search
        latin1CaseRanges "containing" "ÉCOLE" 0 10
      = some ([messageWith "2" ⟨"a", "b"⟩ [] [("X-Note", ["Grande École"])] "body",
          messageWith "1" ⟨"a", "b"⟩ [] [] "école"], 2, none) :=
  (Search_containing_matches _ "ÉCOLE" 10 (by decide) (by decide) (by decide)).1

/-- C14: for kind `"to"`, a stored message is counted as a match by `Search`
exactly when the lower-cased query is a substring of the lower-cased
`Mailbox@Domain` of some recipient or of a lower-cased value of the `To`
header. -/
theorem Search_to_matches (memory : InMemory) (query : String) (limit : Int)
    (hl : IsInt limit)
    (hn : IsInt (memory.Messages.filter (doAppend caseRanges "to" (toLower caseRanges query))).length)
    (hge : ((memory.Messages.filter (doAppend caseRanges "to" (toLower caseRanges query))).length : Int) ≤ limit) :
    memory.Search caseRanges "to" query 0 limit
        = some ((memory.Messages.filter (doAppend caseRanges "to" (toLower caseRanges query))).reverse,
            ((memory.Messages.filter (doAppend caseRanges "to" (toLower caseRanges query))).length : Int), none) ∧
      (∀ m : data.Message,
        m ∈ memory.Messages.filter (doAppend caseRanges "to" (toLower caseRanges query)) ↔
          m ∈ memory.Messages ∧
            ((∃ p ∈ m.To,
                IsSubstring (toLower caseRanges query) (toLower caseRanges (p.Mailbox ++ "@" ++ p.Domain))) ∨
              ∃ hdr, m.Content.Headers.lookup "To" = some hdr ∧
                ∃ v ∈ hdr, IsSubstring (toLower caseRanges query) (toLower caseRanges v))) := by
  refine ⟨Search_all memory "to" query limit hl hn hge, ?_⟩
  intro m
  rw [List.mem_filter, doAppend_to_iff]

/-- An instance of the `to` search with the Latin-1 excerpt of the case
table: one message matches by its second recipient `MÜLLER@z.com`, one by its
`To` header, one not at all. -/
theorem Search_to_matches_witness :
    ((((CreateInMemory 0).Store
        (messageWith "1" ⟨"a", "b"⟩ [⟨"x", "y.com"⟩, ⟨"MÜLLER", "z.com"⟩] [] "")).1.Store
        (messageWith "2" ⟨"a", "b"⟩ [⟨"x", "y.com"⟩] [("To", ["Müller <m@z.com>"])] "")).1.Store
        (messageWith "3" ⟨"müller", "b"⟩ [⟨"x", "y.com"⟩] [("Cc", ["müller@z.com"])] "")).1.Search
        latin1CaseRanges "to" "müller" 0 10
      = some ([messageWith "2" ⟨"a", "b"⟩ [⟨"x", "y.com"⟩] [("To", ["Müller <m@z.com>"])] "",
          messageWith "1" ⟨"a", "b"⟩ [⟨"x", "y.com"⟩, ⟨"MÜLLER", "z.com"⟩] [] ""], 2, none) :=
  (Search_to_matches _ "müller" 10 (by decide) (by decide) (by decide)).1

/-- C15, as stated, fails: `Load` of an identifier that is not stored returns
no error. -/
theorem Load_absent_no_error :
    ¬ ∃ (msg : Option data.Message) (e : GoError),
        ((CreateInMemory 0).Store (exampleMessage "a" 0)).1.Load "b" = some (msg, some e) := by
  rintro ⟨msg, e, h⟩
  have hload : ((CreateInMemory 0).Store (exampleMessage "a" 0)).1.Load "b"
      = some (none, none) := by decide
  rw [hload] at h
  cases h

/-- C15, amended: `Load(id)` for an `id` that is not stored returns a nil
message and a nil error; only `DeleteOne` reports the not-found error for an
unknown `id`. -/
theorem Load_absent (memory : InMemory) (id : String)
    (h : memory.MessageIDIndex.get? id = none) :
    memory.Load id = some (none, none) ∧
      memory.DeleteOne id = some (memory, some GoError.messageNotFound) := by
  unfold InMemory.Load InMemory.DeleteOne
  rw [h]
  exact ⟨rfl, rfl⟩

/-- An instance of the load of an unknown identifier on a store of one
message. -/
theorem Load_absent_witness :
    ((CreateInMemory 0).Store (exampleMessage "a" 0)).1.Load "b" = some (none, none) :=
  (Load_absent _ "b" (by decide)).1

/-- C16: for every store state and message `m`, `Store(m)` returns `m.ID` and
no error; afterwards `Count()` is one more than before, every previously
stored message is at the same position as before, and `m` is the newest
message: `List(0, 1) = [m]`. -/
theorem Store_effect (memory : InMemory) (m : data.Message)
    (hn : IsInt ((memory.Messages.length : Int) + 1)) :
    (memory.Store m).2 = (m.ID, none) ∧
      (memory.Store m).1.Count = memory.Count + 1 ∧
      (∀ i : Nat, i < memory.Messages.length →
        (memory.Store m).1.Messages[i]? = memory.Messages[i]?) ∧
      (memory.Store m).1.Messages[memory.Messages.length]? = some m ∧
      (memory.Store m).1.List 0 1 = some ([m], none) := by
  have hlen : ((memory.Store m).1.Messages.length : Int) = (memory.Messages.length : Int) + 1 := by
    simp [InMemory.Store]
  refine ⟨rfl, ?_, ?_, ?_, ?_⟩
  · simp [InMemory.Count, InMemory.Store]
  · intro i hi
    simp only [InMemory.Store]
    exact List.getElem?_append_left hi
  · simp [InMemory.Store]
  · rw [List_page _ 0 1 (le_refl 0) (by omega) (by decide) (by decide) (by rw [hlen]; exact hn)]
    simp [InMemory.Store]

/-- An instance of the effect of `Store` on a store of one message. -/
theorem Store_effect_witness :
    (((CreateInMemory 0).Store (exampleMessage "a" 0)).1.Store (exampleMessage "b" 1)).1.List 0 1
      = some ([exampleMessage "b" 1], none) :=
  (Store_effect ((CreateInMemory 0).Store (exampleMessage "a" 0)).1 (exampleMessage "b" 1)
    (by decide)).2.2.2.2

/-- C18, as stated, fails: a message whose only matching evidence is a value
of a header spelled `to` (resp. `FROM`) is not counted as a match for kind
`"to"` (resp. `"from"`).  All strings are ASCII, so the case table is not
consulted. -/
theorem Search_header_name_exact :
    ((CreateInMemory 0).Store
        (messageWith "1" ⟨"a", "b"⟩ [⟨"x", "y.com"⟩] [("to", ["carol@z.com"])] "")).1.Search latin1CaseRanges
          "to" "carol" 0 10 = some ([], 0, none) ∧
      ((CreateInMemory 0).Store
        (messageWith "1" ⟨"a", "b"⟩ [⟨"x", "y.com"⟩] [("FROM", ["carol@z.com"])] "")).1.Search latin1CaseRanges
          "from" "carol" 0 10 = some ([], 0, none) := by
  decide

/-- C18, amended: the header lookup in `Search` is by the exact names `To` and
`From`: for kind `"to"` (resp. `"from"`), a message none of whose recipients
(resp. whose sender) matches and which has no header spelled exactly `To`
(resp. `From`) is not counted as a match, whatever its other headers hold. -/
theorem doAppend_header_name_exact (query : String) (m : data.Message) :
    ((∀ p ∈ m.To, ¬ IsSubstring query (toLower caseRanges (p.Mailbox ++ "@" ++ p.Domain))) →
        m.Content.Headers.lookup "To" = none → doAppend caseRanges "to" query m = false) ∧
      (¬ IsSubstring query (toLower caseRanges (m.From.Mailbox ++ "@" ++ m.From.Domain)) →
        m.Content.Headers.lookup "From" = none → doAppend caseRanges "from" query m = false) := by
  constructor
  · intro h1 h2
    rw [← Bool.not_eq_true, doAppend_to_iff, h2]
    rintro (⟨p, hp, hs⟩ | ⟨hdr, hh, _⟩)
    · exact h1 p hp hs
    · cases hh
  · intro h1 h2
    rw [← Bool.not_eq_true, doAppend_from_iff, h2]
    rintro (hs | ⟨hdr, hh, _⟩)
    · exact h1 hs
    · cases hh

/-- An instance of the exact header lookup: the header `to` is not read. -/
theorem doAppend_header_name_exact_witness :
    doAppend latin1CaseRanges "to" "carol"
      (messageWith "1" ⟨"a", "b"⟩ [⟨"x", "y.com"⟩] [("to", ["carol@z.com"])] "") = false :=
  (doAppend_header_name_exact "carol"
    (messageWith "1" ⟨"a", "b"⟩ [⟨"x", "y.com"⟩] [("to", ["carol@z.com"])] "")).1
    (by
      intro p hp
      rw [← contains_iff_isSubstring]
      simp only [messageWith, List.mem_singleton] at hp
      subst hp
      decide)
    (by decide)

/-! ## Reads of the pagination loop -/

/-- The loop returns, that is, it reads only positions of `xs`, whenever it
starts inside `xs` and stops at `-1` or above. -/
theorem collectDown_isSome (xs : List data.Message) (stop : Int) (hstop : -1 ≤ stop) :
    ∀ (fuel : Nat) (i : Int) (acc : data.Messages), i < xs.length →
      ∃ r, collectDown xs stop fuel i acc = some r := by
  intro fuel
  induction fuel with
  | zero => intro i acc _; exact ⟨acc, rfl⟩
  | succ fuel ih =>
    intro i acc hi
    unfold collectDown
    by_cases hgt : i > stop
    · rw [if_pos hgt]
      have hlt : i.toNat < xs.length := by omega
      have hidx : index? xs i = some (xs[i.toNat]) := by
        unfold index?
        rw [if_pos (by omega), List.getElem?_eq_getElem hlt]
      rw [hidx]
      exact ih (i - 1) _ (by omega)
    · rw [if_neg hgt]
      exact ⟨acc, rfl⟩

/-- The pagination arithmetic shared by `List` and `Search` starts the loop
inside the vector and stops it at `-1` or above, for every non-negative
start and every limit. -/
theorem page_isSome (xs : List data.Message) (start limit : Int) (h0 : 0 ≤ start)
    (hs : IsInt start) (hn : IsInt xs.length)
    (hne : ¬ ((xs.length : Int) = 0 ∨ start > (xs.length : Int))) :
    let len : Int := xs.length
    let limit1 := if wrapInt (start + limit) > len then wrapInt (len - start) else limit
    let start1 := wrapInt (wrapInt (len - start) - 1)
    let stop1 := wrapInt (start1 - limit1)
    let start2 := if start1 < 0 then 0 else start1
    let stop2 := if stop1 < -1 then -1 else stop1
    ∃ r, collectDown xs stop2 (start2 - stop2).toNat start2 [] = some r := by
  intro len limit1 start1 stop1 start2 stop2
  unfold IsInt at hs hn
  have h1 : start1 = len - start - 1 := by
    simp only [start1, wrapInt]; omega
  apply collectDown_isSome
  · simp only [stop2]; split <;> omega
  · simp only [start2]; split <;> omega

theorem List_isSome (memory : InMemory) (start limit : Int) (h0 : 0 ≤ start)
    (hs : IsInt start) (hn : IsInt memory.Messages.length) :
    ∃ r, memory.List start limit = some r := by
  unfold InMemory.List
  simp only
  split
  · exact ⟨_, rfl⟩
  · rename_i hne
    obtain ⟨r, hr⟩ := page_isSome memory.Messages start limit h0 hs hn hne
    rw [hr]
    exact ⟨_, rfl⟩

theorem Search_isSome (memory : InMemory) (kind query : String) (start limit : Int)
    (h0 : 0 ≤ start) (hs : IsInt start) (hn : IsInt memory.Messages.length) :
    ∃ r, memory.Search caseRanges kind query start limit = some r ∧
      (¬ (((memory.Messages.filter (doAppend caseRanges kind (toLower caseRanges query))).length : Int) = 0 ∨
          start > ((memory.Messages.filter (doAppend caseRanges kind (toLower caseRanges query))).length : Int)) →
        r.2 = (((memory.Messages.filter (doAppend caseRanges kind (toLower caseRanges query))).length : Int), none)) := by
  have hle := List.length_filter_le (doAppend caseRanges kind (toLower caseRanges query)) memory.Messages
  have hn2 : IsInt (memory.Messages.filter (doAppend caseRanges kind (toLower caseRanges query))).length := by
    unfold IsInt at hn ⊢
    omega
  unfold InMemory.Search
  simp only
  split
  · rename_i he
    exact ⟨_, rfl, fun h => absurd he h⟩
  · rename_i hne
    obtain ⟨r, hr⟩ := page_isSome (memory.Messages.filter (doAppend caseRanges kind (toLower caseRanges query)))
      start limit h0 hs hn2 hne
    rw [hr]
    exact ⟨_, rfl, fun _ => rfl⟩

theorem filter_containing_empty (xs : List data.Message) :
    xs.filter (doAppend caseRanges "containing" (toLower caseRanges "")) = xs := by
  rw [List.filter_eq_self]
  intro m _
  rw [toLower_empty, doAppend_containing_iff]
  exact Or.inl ⟨[], (toLower caseRanges m.Content.Body).data, rfl⟩

/-- C19: for every store, every `start ≥ 0` and every limit, `List` and
`Search` return, that is, their loops read only positions `i` with
`0 ≤ i < len` of the scanned vector and never fail with an index out of
range.  The precondition `start ≥ 0` is needed: for a non-empty store
`List(-1, 1)` reads position `len(Messages)` and panics. -/
theorem List_Search_reads_in_range (memory : InMemory) (kind query : String)
    (start limit : Int) (h0 : 0 ≤ start) (hs : IsInt start)
    (hn : IsInt memory.Messages.length) :
    (∃ r, memory.List start limit = some r) ∧
      (∃ r, memory.Search caseRanges kind query start limit = some r) ∧
      (memory.Messages ≠ [] →
        memory.List (-1) 1 = none ∧ index? memory.Messages memory.Messages.length = none) := by
  refine ⟨List_isSome memory start limit h0 hs hn, ?_, ?_⟩
  · obtain ⟨r, hr, _⟩ := Search_isSome memory kind query start limit h0 hs hn
    exact ⟨r, hr⟩
  · intro hne
    have hpos : 0 < memory.Messages.length := List.length_pos.2 hne
    have hidx : index? memory.Messages memory.Messages.length = none := by
      rw [index?_natCast]
      simp
    refine ⟨?_, hidx⟩
    unfold IsInt at hn
    unfold InMemory.List
    simp only
    rw [if_neg (by omega)]
    have e1 : wrapInt (-1 + 1) = 0 := by decide
    have e2 : wrapInt (wrapInt ((memory.Messages.length : Int) - -1) - 1)
        = (memory.Messages.length : Int) := by
      unfold wrapInt; omega
    have e3 : wrapInt ((memory.Messages.length : Int) - 1) = (memory.Messages.length : Int) - 1 := by
      unfold wrapInt; omega
    have e4 : (if (0 : Int) > (memory.Messages.length : Int)
        then wrapInt ((memory.Messages.length : Int) - -1) else 1) = 1 := if_neg (by omega)
    have e5 : (if (memory.Messages.length : Int) < 0 then 0 else (memory.Messages.length : Int))
        = (memory.Messages.length : Int) := if_neg (by omega)
    have e6 : (if (memory.Messages.length : Int) - 1 < -1 then -1
        else (memory.Messages.length : Int) - 1) = (memory.Messages.length : Int) - 1 :=
      if_neg (by omega)
    have e7 : ((memory.Messages.length : Int) - ((memory.Messages.length : Int) - 1)).toNat
        = 0 + 1 := by omega
    rw [e1, e2, e4, e3, e5, e6, e7, collectDown, if_pos (by omega), hidx]
    rfl

/-- An instance of the safety of the reads on a store of two messages, with a
negative limit. -/
theorem List_Search_reads_in_range_witness :
    (∃ r, (((CreateInMemory 0).Store (exampleMessage "a" 0)).1.Store
        (exampleMessage "b" 1)).1.List 1 (-3) = some r) ∧
      (((CreateInMemory 0).Store (exampleMessage "a" 0)).1.Store
        (exampleMessage "b" 1)).1.List (-1) 1 = none := by
  obtain ⟨h1, _, h3⟩ := @List_Search_reads_in_range latin1CaseRanges
    (((CreateInMemory 0).Store (exampleMessage "a" 0)).1.Store (exampleMessage "b" 1)).1
    "from" "alice" 1 (-3) (by decide) (by decide) (by decide)
  exact ⟨h1, (h3 (by decide)).1⟩

/-- C20: the duplicated pagination code agrees: for every store and all
`start ≥ 0` and `limit`, `Search("containing", "", start, limit)` returns the
same message slice as `List(start, limit)` (the empty query matches every
message), both return, and the total of `Search` equals `Count()` whenever
the store is non-empty and `start ≤ Count()`. -/
theorem Search_containing_empty_eq_List (memory : InMemory) (start limit : Int)
    (h0 : 0 ≤ start) (hs : IsInt start) (hn : IsInt memory.Messages.length) :
    ∃ (msgs : data.Messages) (total : Int),
      memory.Search caseRanges "containing" "" start limit = some (msgs, total, none) ∧
      memory.List start limit = some (msgs, none) ∧
      (memory.Messages ≠ [] → start ≤ memory.Count → total = memory.Count) := by
  obtain ⟨r, hr, htot⟩ := Search_isSome memory "containing" "" start limit h0 hs hn
  rw [filter_containing_empty] at htot
  have hagree : (memory.Search caseRanges "containing" "" start limit).map (fun r => (r.1, r.2.2))
      = memory.List start limit := by
    unfold InMemory.Search InMemory.List
    simp only [filter_containing_empty]
    split
    · rfl
    · rw [Option.map_map]
      rfl
  rw [hr] at hagree
  obtain ⟨msgs, total, e⟩ := r
  have he : e = none := by
    unfold InMemory.Search at hr
    simp only at hr
    split at hr
    · cases hr; rfl
    · cases hc : collectDown (memory.Messages.filter (doAppend caseRanges "containing" (toLower caseRanges ""))) _ _ _ []
        <;> rw [hc] at hr <;> simp at hr
      exact hr.2.2.symm
  subst he
  refine ⟨msgs, total, hr, hagree.symm, ?_⟩
  intro hne hle
  have hpos : 0 < memory.Messages.length := List.length_pos.2 hne
  have := htot (by unfold InMemory.Count at hle; omega)
  simp only [Prod.mk.injEq] at this
  exact this.1

/-- An instance of the agreement of `Search` and `List` on a store of two
messages. -/
theorem Search_containing_empty_eq_List_witness :
    ∃ (msgs : data.Messages) (total : Int),
      (((CreateInMemory 0).Store (exampleMessage "a" 0)).1.Store
        (exampleMessage "b" 1)).1.Search latin1CaseRanges "containing" "" 1 5 = some (msgs, total, none) ∧
      (((CreateInMemory 0).Store (exampleMessage "a" 0)).1.Store
        (exampleMessage "b" 1)).1.List 1 5 = some (msgs, none) ∧
      total = 2 := by
  obtain ⟨msgs, total, h1, h2, h3⟩ := Search_containing_empty_eq_List
    (((CreateInMemory 0).Store (exampleMessage "a" 0)).1.Store (exampleMessage "b" 1)).1
    1 5 (by decide) (by decide) (by decide)
  exact ⟨msgs, total, h1, h2, h3 (by decide) (by decide)⟩
